import Mathlib

/-!
Verification of the selector-addressed tree patching engine of the
manosaba-community-translate repository.

The Python sources are shallowly embedded: Python values (the trees decoded
from bundle objects, YAML data and patch stores) become the inductive type
`PyVal`; Python strings become `List Char`; in-place mutation becomes a
function returning the updated tree together with the success boolean; code
paths that raise exceptions return `Option` (`none` = exception), and
`sys.exit` is rendered as `none` as well.
-/

/-- Python dictionary keys as they occur in this code base (hashable
scalars).  Keys produced by `json.loads`, `read_typetree` and the patch
stores are strings; YAML mappings may in addition carry `int`, `bool` and
null keys. -/
inductive PyKey where
  | kstr : List Char → PyKey
  | kint : Int → PyKey
  | kbool : Bool → PyKey
  | knone : PyKey
deriving DecidableEq, Repr

/-- Python values as they occur in the decoded trees: strings, ints, bools,
None, lists and (insertion-ordered) dicts.  A dict is modelled as an
association list in insertion order; real Python dicts have unique keys,
which first-match lookup reproduces. -/
inductive PyVal where
  | vstr : List Char → PyVal
  | vint : Int → PyVal
  | vbool : Bool → PyVal
  | vnone : PyVal
  | vlist : List PyVal → PyVal
  | vdict : List (PyKey × PyVal) → PyVal
deriving Repr

/-- Characters matched by `\w` in the selector regular expression (ASCII
word characters; the field names appearing in this repository are ASCII
identifiers). -/
def isWordChar (c : Char) : Bool := c.isAlphanum || c = '_'

/-- Decimal digit characters, as matched by `\d`. -/
def isDigitChar (c : Char) : Bool := c.isDigit

/-- The decimal digit character for `d < 10`. -/
def digitChar (d : Nat) : Char :=
  match d with
  | 0 => '0' | 1 => '1' | 2 => '2' | 3 => '3' | 4 => '4'
  | 5 => '5' | 6 => '6' | 7 => '7' | 8 => '8' | _ => '9'

/-- Numeric value of a decimal digit character. -/
def digitVal (c : Char) : Nat := c.toNat - 48

/-- Decimal digits of `n`, most significant first; `fuel` bounds the
recursion (any `fuel > n` is exact). -/
def natToDigitsAux : Nat → Nat → List Char
  | 0, _ => []
  | fuel + 1, n =>
    if n < 10 then [digitChar n]
    else natToDigitsAux fuel (n / 10) ++ [digitChar (n % 10)]

/-- Decimal representation of a natural number, as produced by Python
string formatting of a non-negative int (no leading zeros, `"0"` for 0). -/
def natToDigits (n : Nat) : List Char := natToDigitsAux (n + 1) n

/-- Value of a decimal digit string, as computed by Python `int` on a
string of digits. -/
def natFromDigits (ds : List Char) : Nat :=
  ds.foldl (fun a c => 10 * a + digitVal c) 0

example : natToDigits 120 = ['1', '2', '0'] := by decide
example : natFromDigits ['0', '4', '2'] = 42 := by decide

/-! Decidable equality for `PyVal` (the nested inductive prevents automatic
derivation, so a Boolean comparison is defined and proved correct). -/

mutual
def pyValBeq : PyVal → PyVal → Bool
  | .vstr a, .vstr b => a == b
  | .vint a, .vint b => a == b
  | .vbool a, .vbool b => a == b
  | .vnone, .vnone => true
  | .vlist a, .vlist b => pyListBeq a b
  | .vdict a, .vdict b => pyDictBeq a b
  | _, _ => false
def pyListBeq : List PyVal → List PyVal → Bool
  | [], [] => true
  | x :: xs, y :: ys => pyValBeq x y && pyListBeq xs ys
  | _, _ => false
def pyDictBeq : List (PyKey × PyVal) → List (PyKey × PyVal) → Bool
  | [], [] => true
  | (k1, v1) :: xs, (k2, v2) :: ys => (k1 = k2 : Bool) && pyValBeq v1 v2 && pyDictBeq xs ys
  | _, _ => false
end

mutual
theorem pyValBeq_rfl : ∀ a : PyVal, pyValBeq a a = true
  | .vstr a => by simp [pyValBeq]
  | .vint a => by simp [pyValBeq]
  | .vbool a => by simp [pyValBeq]
  | .vnone => by simp [pyValBeq]
  | .vlist a => by simpa [pyValBeq] using pyListBeq_rfl a
  | .vdict a => by simpa [pyValBeq] using pyDictBeq_rfl a
theorem pyListBeq_rfl : ∀ a : List PyVal, pyListBeq a a = true
  | [] => rfl
  | x :: xs => by simp [pyListBeq, pyValBeq_rfl x, pyListBeq_rfl xs]
theorem pyDictBeq_rfl : ∀ a : List (PyKey × PyVal), pyDictBeq a a = true
  | [] => rfl
  | (k, v) :: xs => by simp [pyDictBeq, pyValBeq_rfl v, pyDictBeq_rfl xs]
end

mutual
theorem pyValBeq_sound : ∀ a b : PyVal, pyValBeq a b = true → a = b
  | .vstr a, .vstr b, h => by simpa [pyValBeq] using h
  | .vint a, .vint b, h => by simpa [pyValBeq] using h
  | .vbool a, .vbool b, h => by simpa [pyValBeq] using h
  | .vnone, .vnone, _ => rfl
  | .vlist a, .vlist b, h =>
      congrArg PyVal.vlist (pyListBeq_sound a b (by simpa [pyValBeq] using h))
  | .vdict a, .vdict b, h =>
      congrArg PyVal.vdict (pyDictBeq_sound a b (by simpa [pyValBeq] using h))
  | .vstr _, .vint _, h => by simp [pyValBeq] at h
  | .vstr _, .vbool _, h => by simp [pyValBeq] at h
  | .vstr _, .vnone, h => by simp [pyValBeq] at h
  | .vstr _, .vlist _, h => by simp [pyValBeq] at h
  | .vstr _, .vdict _, h => by simp [pyValBeq] at h
  | .vint _, .vstr _, h => by simp [pyValBeq] at h
  | .vint _, .vbool _, h => by simp [pyValBeq] at h
  | .vint _, .vnone, h => by simp [pyValBeq] at h
  | .vint _, .vlist _, h => by simp [pyValBeq] at h
  | .vint _, .vdict _, h => by simp [pyValBeq] at h
  | .vbool _, .vstr _, h => by simp [pyValBeq] at h
  | .vbool _, .vint _, h => by simp [pyValBeq] at h
  | .vbool _, .vnone, h => by simp [pyValBeq] at h
  | .vbool _, .vlist _, h => by simp [pyValBeq] at h
  | .vbool _, .vdict _, h => by simp [pyValBeq] at h
  | .vnone, .vstr _, h => by simp [pyValBeq] at h
  | .vnone, .vint _, h => by simp [pyValBeq] at h
  | .vnone, .vbool _, h => by simp [pyValBeq] at h
  | .vnone, .vlist _, h => by simp [pyValBeq] at h
  | .vnone, .vdict _, h => by simp [pyValBeq] at h
  | .vlist _, .vstr _, h => by simp [pyValBeq] at h
  | .vlist _, .vint _, h => by simp [pyValBeq] at h
  | .vlist _, .vbool _, h => by simp [pyValBeq] at h
  | .vlist _, .vnone, h => by simp [pyValBeq] at h
  | .vlist _, .vdict _, h => by simp [pyValBeq] at h
  | .vdict _, .vstr _, h => by simp [pyValBeq] at h
  | .vdict _, .vint _, h => by simp [pyValBeq] at h
  | .vdict _, .vbool _, h => by simp [pyValBeq] at h
  | .vdict _, .vnone, h => by simp [pyValBeq] at h
  | .vdict _, .vlist _, h => by simp [pyValBeq] at h
theorem pyListBeq_sound : ∀ a b : List PyVal, pyListBeq a b = true → a = b
  | [], [], _ => rfl
  | x :: xs, y :: ys, h => by
      have h1 : pyValBeq x y = true := by
        have h0 := h; simp [pyListBeq] at h0; exact h0.1
      have h2 : pyListBeq xs ys = true := by
        have h0 := h; simp [pyListBeq] at h0; exact h0.2
      rw [pyValBeq_sound x y h1, pyListBeq_sound xs ys h2]
  | [], _ :: _, h => by simp [pyListBeq] at h
  | _ :: _, [], h => by simp [pyListBeq] at h
theorem pyDictBeq_sound : ∀ a b : List (PyKey × PyVal), pyDictBeq a b = true → a = b
  | [], [], _ => rfl
  | (k1, v1) :: xs, (k2, v2) :: ys, h => by
      have h0 : k1 = k2 := by
        have hh := h; simp [pyDictBeq] at hh; exact hh.1.1
      have h1 : pyValBeq v1 v2 = true := by
        have hh := h; simp [pyDictBeq] at hh; exact hh.1.2
      have h2 : pyDictBeq xs ys = true := by
        have hh := h; simp [pyDictBeq] at hh; exact hh.2
      rw [h0, pyValBeq_sound v1 v2 h1, pyDictBeq_sound xs ys h2]
  | [], _ :: _, h => by simp [pyDictBeq] at h
  | _ :: _, [], h => by simp [pyDictBeq] at h
end

instance : DecidableEq PyVal := fun a b =>
  if h : pyValBeq a b = true then .isTrue (pyValBeq_sound a b h)
  else .isFalse (fun e => h (e ▸ pyValBeq_rfl a))

/-! ## Selector language (`src/lib/tree_traversal.py`)

`_parse_selector` splits the selector on `'.'` and matches each part
against the regular expression `^(\w+)((\[\d+])*)$`; an unmatched part
becomes a degenerate token holding the whole part and no indices. -/

/-- A token of a parsed selector: a field name and the consecutive bracket
indices attached to it. -/
abbrev Token := List Char × List Nat

/-- Python `selector.split('.')` (on a nonempty string). -/
def splitOnDot : List Char → List (List Char)
  | [] => [[]]
  | c :: rest =>
    if c = '.' then [] :: splitOnDot rest
    else
      match splitOnDot rest with
      | [] => [[c]]
      | p :: ps => (c :: p) :: ps

mutual
/-- Matches the remainder of a selector part against `(\[\d+])*` anchored
at the end, returning the list of index values (each group of digits read
by Python `int`). -/
def parseBrackets : List Char → Option (List Nat)
  | [] => some []
  | c :: rest => if c = '[' then parseBracketDigits rest 0 false else none
/-- Reads the digits of one `[digits]` group, accumulating the decimal
value; `seen` records whether at least one digit has been read. -/
def parseBracketDigits : List Char → Nat → Bool → Option (List Nat)
  | [], _, _ => none
  | c :: rest, acc, seen =>
    if isDigitChar c then parseBracketDigits rest (10 * acc + digitVal c) true
    else if c = ']' && seen then (parseBrackets rest).map (fun is => acc :: is)
    else none
end

/-- One part of a split selector, matched against `^(\w+)((\[\d+])*)$`.
The maximal word-character prefix is the candidate field name (the regex
cannot backtrack into the bracket groups because `'['` is not a word
character); the dollar anchor of the Python regex also matches just before
a single trailing newline, hence the `dropLast` adjustment.  When the
regex fails, the whole part becomes a token without indices. -/
def parsePart (part : List Char) : Token :=
  let name := part.takeWhile isWordChar
  let rest := part.dropWhile isWordChar
  let rest := match rest.getLast? with
    | some c => if c = '\n' then rest.dropLast else rest
    | none => rest
  if name = [] then (part, [])
  else
    match parseBrackets rest with
    | some idxs => (name, idxs)
    | none => (part, [])

/-- Model of `_parse_selector` (src/lib/tree_traversal.py, lines 4-17). -/
def parseSelector (s : List Char) : List Token :=
  if s = [] then [] else (splitOnDot s).map parsePart

/-- The serialization of one token as built by the extractor's string
concatenation: the field name followed by each index wrapped in
brackets. -/
def serializeToken (t : Token) : List Char :=
  t.1 ++ (t.2.map (fun i => '[' :: (natToDigits i ++ [']']))).flatten

/-- The serialization of a token sequence: tokens joined by `'.'`, exactly
the construction used by the extractor when it builds selector strings. -/
def serializeTokens : List Token → List Char
  | [] => []
  | [t] => serializeToken t
  | t :: ts => serializeToken t ++ '.' :: serializeTokens ts

example :
    parseSelector ("_items[2]._taggedText[0]._text".toList) =
      [("_items".toList, [2]), ("_taggedText".toList, [0]), ("_text".toList, [])] := by
  decide

example :
    serializeTokens [("_items".toList, [2]), ("_text".toList, [])] =
      "_items[2]._text".toList := by
  decide

/-! ## Tree resolver (`src/lib/tree_traversal.py`, `set_by_selector`)

The loop of `set_by_selector` performs, for each token, a dictionary
access by name followed by one list access per index, remembering the last
container and key, and finally writes the value into that last container.
Flattened, this is a sequence of elementary steps (field access or index
access); every step must resolve, and the value is written at the location
of the last step.  In-place mutation is rendered by returning the updated
tree; a failed resolution performs no write, so the original tree is
returned with `false`. -/

/-- One elementary access step of the resolver. -/
inductive Step where
  | field : List Char → Step
  | index : Nat → Step
deriving DecidableEq, Repr

/-- Lookup of a string key in a Python dict (`name in cur` / `cur[name]`):
the first entry whose key is the string compares equal; keys of other
scalar types never compare equal to a string. -/
def lookupStr (k : List Char) : List (PyKey × PyVal) → Option PyVal
  | [] => none
  | (PyKey.kstr s, v) :: rest => if s = k then some v else lookupStr k rest
  | _ :: rest => lookupStr k rest

/-- `name in cur` for a dict. -/
def containsStr (k : List Char) (d : List (PyKey × PyVal)) : Bool :=
  (lookupStr k d).isSome

/-- Python `d[k] = v`: replaces the value of the existing entry in place,
or appends a new entry at the end. -/
def updateStr (k : List Char) (v : PyVal) : List (PyKey × PyVal) → List (PyKey × PyVal)
  | [] => [(PyKey.kstr k, v)]
  | (PyKey.kstr s, w) :: rest =>
    if s = k then (PyKey.kstr s, v) :: rest else (PyKey.kstr s, w) :: updateStr k v rest
  | p :: rest => p :: updateStr k v rest

/-- Reading one step: a field access requires a dict containing the name
(`not isinstance(cur, dict) or name not in cur` fails softly); an index
access requires a list with the index in range. -/
def getStep : PyVal → Step → Option PyVal
  | .vdict d, .field n => lookupStr n d
  | .vlist xs, .index i => xs.get? i
  | _, _ => none

/-- Writing one step: the same applicability conditions as `getStep`, with
the value stored at the addressed slot. -/
def setStep : PyVal → Step → PyVal → Option PyVal
  | .vdict d, .field n, v => if containsStr n d then some (.vdict (updateStr n v d)) else none
  | .vlist xs, .index i, v => if i < xs.length then some (.vlist (xs.set i v)) else none
  | _, _, _ => none

/-- Resolution of a step path against a tree (the traversal part of the
resolver loop). -/
def resolveSteps : PyVal → List Step → Option PyVal
  | t, [] => some t
  | t, st :: rest =>
    match getStep t st with
    | some sub => resolveSteps sub rest
    | none => none

/-- Writing a value at the end of a step path: every step must resolve and
the value is stored at the location of the final step (the single write
the Python loop performs after full resolution). -/
def setSteps : PyVal → List Step → PyVal → Option PyVal
  | _, [], _ => none
  | t, [st], v => setStep t st v
  | t, st :: s2 :: rest, v =>
    match getStep t st with
    | some sub =>
      match setSteps sub (s2 :: rest) v with
      | some sub2 => setStep t st sub2
      | none => none
    | none => none

/-- The step sequence of a token list: for each token, a field access
followed by one index access per bracket index. -/
def stepsOfTokens (ts : List Token) : List Step :=
  ts.flatMap (fun t => Step.field t.1 :: t.2.map Step.index)

/-- Model of `set_by_selector` (src/lib/tree_traversal.py, lines 20-62).
Returns the success boolean together with the (possibly updated) tree;
on failure no write has happened and the original tree is returned. -/
def set_by_selector (root : PyVal) (selector : List Char) (value : PyVal) : Bool × PyVal :=
  match setSteps root (stepsOfTokens (parseSelector selector)) value with
  | some t => (true, t)
  | none => (false, root)

/-- The tree of spec scenario 1:
`{"_items":[{"_taggedText":[{"_locale":0,"_text":"Hello"},{"_locale":2,"_text":"你好"}]}]}`. -/
def scenario1Tree : PyVal :=
  .vdict [(.kstr "_items".toList, .vlist
    [.vdict [(.kstr "_taggedText".toList, .vlist
      [.vdict [(.kstr "_locale".toList, .vint 0), (.kstr "_text".toList, .vstr "Hello".toList)],
       .vdict [(.kstr "_locale".toList, .vint 2), (.kstr "_text".toList, .vstr "你好".toList)]])]])]

example :
    set_by_selector scenario1Tree ("_items[0]._taggedText[0]._text".toList)
        (.vstr "Xin chào".toList) =
      (true,
        .vdict [(.kstr "_items".toList, .vlist
          [.vdict [(.kstr "_taggedText".toList, .vlist
            [.vdict [(.kstr "_locale".toList, .vint 0),
                     (.kstr "_text".toList, .vstr "Xin chào".toList)],
             .vdict [(.kstr "_locale".toList, .vint 2),
                     (.kstr "_text".toList, .vstr "你好".toList)]])]])]) := by
  decide

example :
    set_by_selector (.vdict [(.kstr "_items".toList, .vlist [.vint 1, .vint 2])])
        ("_items[5]._text".toList) (.vstr "x".toList) =
      (false, .vdict [(.kstr "_items".toList, .vlist [.vint 1, .vint 2])]) := by
  decide

/-! Auxiliary lemmas about dict updates and elementary steps. -/

theorem lookupStr_updateStr_self (k : List Char) (v : PyVal) (d : List (PyKey × PyVal)) :
    lookupStr k (updateStr k v d) = some v := by
  induction d with
  | nil => simp [updateStr, lookupStr]
  | cons p rest ih =>
    obtain ⟨pk, pv⟩ := p
    cases pk with
    | kstr s =>
      by_cases hs : s = k
      · simp [updateStr, lookupStr, hs]
      · simp [updateStr, lookupStr, hs, ih]
    | kint n => simp [updateStr, lookupStr, ih]
    | kbool b => simp [updateStr, lookupStr, ih]
    | knone => simp [updateStr, lookupStr, ih]

theorem lookupStr_updateStr_ne (k m : List Char) (v : PyVal) (d : List (PyKey × PyVal))
    (h : m ≠ k) : lookupStr m (updateStr k v d) = lookupStr m d := by
  induction d with
  | nil => simp [updateStr, lookupStr, Ne.symm h]
  | cons p rest ih =>
    obtain ⟨pk, pv⟩ := p
    cases pk with
    | kstr s =>
      by_cases hs : s = k
      · subst hs
        simp [updateStr, lookupStr, Ne.symm h]
      · by_cases hm : s = m
        · subst hm
          simp [updateStr, lookupStr, hs]
        · simp [updateStr, lookupStr, hs, hm, ih]
    | kint n => simp [updateStr, lookupStr, ih]
    | kbool b => simp [updateStr, lookupStr, ih]
    | knone => simp [updateStr, lookupStr, ih]

theorem updateStr_updateStr (k : List Char) (v w : PyVal) (d : List (PyKey × PyVal)) :
    updateStr k w (updateStr k v d) = updateStr k w d := by
  induction d with
  | nil => simp [updateStr]
  | cons p rest ih =>
    obtain ⟨pk, pv⟩ := p
    cases pk with
    | kstr s =>
      by_cases hs : s = k
      · simp [updateStr, hs]
      · simp [updateStr, hs, ih]
    | kint n => simp [updateStr, ih]
    | kbool b => simp [updateStr, ih]
    | knone => simp [updateStr, ih]

/-- A step write fails exactly when the corresponding step read fails. -/
theorem setStep_none_iff (t : PyVal) (st : Step) (v : PyVal) :
    setStep t st v = none ↔ getStep t st = none := by
  cases t <;> cases st <;> simp [setStep, getStep]
  case vdict.field d n =>
    cases hl : lookupStr n d <;> simp [containsStr, hl]

/-- Reading back the step just written yields the written value. -/
theorem getStep_setStep_same (t t' : PyVal) (st : Step) (v : PyVal)
    (h : setStep t st v = some t') : getStep t' st = some v := by
  cases t <;> cases st <;> simp [setStep] at h
  case vlist.index xs i =>
    obtain ⟨hi, ht⟩ := h
    subst ht
    simp [getStep, List.getElem?_set_eq_of_lt _ (by simpa using hi)]
  case vdict.field d n =>
    obtain ⟨hc, ht⟩ := h
    subst ht
    simp [getStep, lookupStr_updateStr_self]

/-- A step write leaves every other step read unchanged. -/
theorem getStep_setStep_ne (t t' : PyVal) (st st' : Step) (v : PyVal)
    (h : setStep t st v = some t') (hne : st' ≠ st) : getStep t' st' = getStep t st' := by
  cases t <;> cases st <;> simp [setStep] at h
  case vlist.index xs i =>
    obtain ⟨hi, ht⟩ := h
    subst ht
    cases st' with
    | field n => simp [getStep]
    | index j =>
      have hj : i ≠ j := fun e => hne (by simp [e])
      simp [getStep, List.getElem?_set_ne hj]
  case vdict.field d n =>
    obtain ⟨hc, ht⟩ := h
    subst ht
    cases st' with
    | field m =>
      have hm : m ≠ n := fun e => hne (by simp [e])
      simp [getStep, lookupStr_updateStr_ne _ _ _ _ hm]
    | index j => simp [getStep]

/-- Writing the same value twice at a step is the same as writing it once. -/
theorem setStep_idem (t t' : PyVal) (st : Step) (v : PyVal)
    (h : setStep t st v = some t') : setStep t' st v = some t' := by
  cases t <;> cases st <;> simp [setStep] at h
  case vlist.index xs i =>
    obtain ⟨hi, ht⟩ := h
    subst ht
    simp [setStep, hi, List.set_set]
  case vdict.field d n =>
    obtain ⟨hc, ht⟩ := h
    subst ht
    simp [setStep, containsStr, lookupStr_updateStr_self, updateStr_updateStr]

/-! Path-level lemmas about `resolveSteps` and `setSteps`. -/

/-- If resolution of the path fails, the write fails (and, in the model,
performs no change). -/
theorem setSteps_none_of_resolve_none : ∀ (t : PyVal) (steps : List Step) (v : PyVal),
    resolveSteps t steps = none → setSteps t steps v = none
  | t, [], v, h => by simp [resolveSteps] at h
  | t, [st], v, h => by
    cases hg : getStep t st with
    | some sub => simp [resolveSteps, hg] at h
    | none => simpa [setSteps] using (setStep_none_iff t st v).mpr hg
  | t, st :: s2 :: rest, v, h => by
    cases hg : getStep t st with
    | none => simp [setSteps, hg]
    | some sub =>
      have h2 : resolveSteps sub (s2 :: rest) = none := by
        simpa [resolveSteps, hg] using h
      simp [setSteps, hg, setSteps_none_of_resolve_none sub (s2 :: rest) v h2]

/-- After a successful write, resolving the written path reads back the
written value. -/
theorem resolveSteps_setSteps : ∀ (t : PyVal) (steps : List Step) (v t' : PyVal),
    setSteps t steps v = some t' → resolveSteps t' steps = some v
  | t, [], v, t', h => by simp [setSteps] at h
  | t, [st], v, t', h => by
    have hg := getStep_setStep_same t t' st v (by simpa [setSteps] using h)
    simp [resolveSteps, hg]
  | t, st :: s2 :: rest, v, t', h => by
    simp only [setSteps] at h
    cases hg : getStep t st with
    | none => simp [hg] at h
    | some sub =>
      simp only [hg] at h
      cases hs : setSteps sub (s2 :: rest) v with
      | none => simp [hs] at h
      | some sub2 =>
        simp only [hs] at h
        have hr := getStep_setStep_same t t' st sub2 h
        simpa [resolveSteps, hr] using resolveSteps_setSteps sub (s2 :: rest) v sub2 hs

/-- Frame property of a successful write: every path that neither extends
the written path nor is a prefix of it resolves exactly as before. -/
theorem resolveSteps_setSteps_frame : ∀ (t : PyVal) (steps : List Step) (v t' : PyVal),
    setSteps t steps v = some t' →
    ∀ p : List Step, (¬ ∃ q, steps ++ q = p) → (¬ ∃ q, p ++ q = steps) →
      resolveSteps t' p = resolveSteps t p
  | t, [], v, t', h => by simp [setSteps] at h
  | t, [st], v, t', h => by
    intro p hext hpre
    match p with
    | [] => exact absurd ⟨[st], rfl⟩ hpre
    | q :: p' =>
      by_cases hq : q = st
      · subst hq
        exact absurd ⟨p', rfl⟩ hext
      · have hg := getStep_setStep_ne t t' st q v (by simpa [setSteps] using h) hq
        cases hgt : getStep t q <;> simp [resolveSteps, hg, hgt]
  | t, st :: s2 :: rest, v, t', h => by
    intro p hext hpre
    simp only [setSteps] at h
    cases hg : getStep t st with
    | none => simp [hg] at h
    | some sub =>
      simp only [hg] at h
      cases hs : setSteps sub (s2 :: rest) v with
      | none => simp [hs] at h
      | some sub2 =>
        simp only [hs] at h
        match p with
        | [] => exact absurd ⟨st :: s2 :: rest, rfl⟩ hpre
        | q :: p' =>
          by_cases hq : q = st
          · subst hq
            have hext2 : ¬ ∃ r, (s2 :: rest) ++ r = p' := by
              rintro ⟨r, hr⟩
              exact hext ⟨r, by simp [hr]⟩
            have hpre2 : ¬ ∃ r, p' ++ r = s2 :: rest := by
              rintro ⟨r, hr⟩
              exact hpre ⟨r, by simp [hr]⟩
            have hget' := getStep_setStep_same t t' q sub2 h
            simp [resolveSteps, hget', hg,
              resolveSteps_setSteps_frame sub (s2 :: rest) v sub2 hs p' hext2 hpre2]
          · have hgq := getStep_setStep_ne t t' st q sub2 h hq
            cases hgt : getStep t q <;> simp [resolveSteps, hgq, hgt]

/-- Writing the same value along the same path twice equals writing it
once. -/
theorem setSteps_idem : ∀ (t : PyVal) (steps : List Step) (v t' : PyVal),
    setSteps t steps v = some t' → setSteps t' steps v = some t'
  | t, [], v, t', h => by simp [setSteps] at h
  | t, [st], v, t', h => by
    simpa [setSteps] using setStep_idem t t' st v (by simpa [setSteps] using h)
  | t, st :: s2 :: rest, v, t', h => by
    simp only [setSteps] at h
    cases hg : getStep t st with
    | none => simp [hg] at h
    | some sub =>
      simp only [hg] at h
      cases hs : setSteps sub (s2 :: rest) v with
      | none => simp [hs] at h
      | some sub2 =>
        simp only [hs] at h
        have hget := getStep_setStep_same t t' st sub2 h
        simp [setSteps, hget, setSteps_idem sub (s2 :: rest) v sub2 hs,
          setStep_idem t t' st sub2 h]

/-! ## Claim theorems for the tree resolver -/

/-- C2: for every tree and selector whose resolution fails at some point
(an intermediate or final node is not a Mapping, a named field is absent,
a node to be indexed is not a Sequence, or an index is out of range —
exactly the cases in which `resolveSteps` returns `none`),
`set_by_selector` returns `False` and leaves the tree completely
unmodified.  The embedding is a total function, so no exception can be
raised (every access in the source is guarded by a type and membership or
bounds test). -/
theorem set_by_selector_soft_fail (root : PyVal) (sel : List Char) (value : PyVal)
    (h : resolveSteps root (stepsOfTokens (parseSelector sel)) = none) :
    set_by_selector root sel value = (false, root) := by
  unfold set_by_selector
  rw [setSteps_none_of_resolve_none root _ value h]

/-- Witness for C2 at spec scenario 3: selector `_items[5]._text` against
a tree whose `_items` has length 2 fails and the tree is unchanged. -/
theorem set_by_selector_soft_fail_witness :
    set_by_selector (.vdict [(.kstr "_items".toList, .vlist [.vint 1, .vint 2])])
        ("_items[5]._text".toList) (.vstr "x".toList) =
      (false, .vdict [(.kstr "_items".toList, .vlist [.vint 1, .vint 2])]) :=
  set_by_selector_soft_fail _ _ _ (by decide)

/-- The scenario-1 tree after patching `_items[0]._taggedText[0]._text`
with `"Xin chào"`. -/
def scenario1Patched : PyVal :=
  .vdict [(.kstr "_items".toList, .vlist
    [.vdict [(.kstr "_taggedText".toList, .vlist
      [.vdict [(.kstr "_locale".toList, .vint 0), (.kstr "_text".toList, .vstr "Xin chào".toList)],
       .vdict [(.kstr "_locale".toList, .vint 2), (.kstr "_text".toList, .vstr "你好".toList)]])]])]

/-- C6: whenever `set_by_selector` succeeds, the written value sits at
exactly the addressed location (the field named by the last token, or the
element at the last token's final index — i.e. the end of the flattened
step path), and every path that neither extends the written path nor is a
prefix of it (every other node and field) resolves exactly as in the
original tree. -/
theorem set_by_selector_success_frame (root : PyVal) (sel : List Char) (value t' : PyVal)
    (h : set_by_selector root sel value = (true, t')) :
    resolveSteps t' (stepsOfTokens (parseSelector sel)) = some value ∧
    ∀ p : List Step, (¬ ∃ q, stepsOfTokens (parseSelector sel) ++ q = p) →
      (¬ ∃ q, p ++ q = stepsOfTokens (parseSelector sel)) →
      resolveSteps t' p = resolveSteps root p := by
  unfold set_by_selector at h
  cases hs : setSteps root (stepsOfTokens (parseSelector sel)) value with
  | none => rw [hs] at h; simp at h
  | some u =>
    rw [hs] at h
    simp only [Prod.mk.injEq] at h
    obtain ⟨-, hu⟩ := h
    subst hu
    exact ⟨resolveSteps_setSteps _ _ _ _ hs, resolveSteps_setSteps_frame _ _ _ _ hs⟩

/-- Witness for C6 at spec scenario 2: patching the scenario-1 tree at
`_items[0]._taggedText[0]._text` with `"Xin chào"` puts the value at that
leaf. -/
theorem set_by_selector_success_frame_witness :
    resolveSteps scenario1Patched
        (stepsOfTokens (parseSelector ("_items[0]._taggedText[0]._text".toList))) =
      some (.vstr "Xin chào".toList) :=
  (set_by_selector_success_frame scenario1Tree ("_items[0]._taggedText[0]._text".toList)
    (.vstr "Xin chào".toList) scenario1Patched (by decide)).1

/-- C7: `set_by_selector` is idempotent — setting the same selector and
value twice yields the same tree (and the same success boolean) as setting
it once. -/
theorem set_by_selector_idempotent (root : PyVal) (sel : List Char) (value : PyVal) :
    set_by_selector (set_by_selector root sel value).2 sel value =
      set_by_selector root sel value := by
  cases hs : setSteps root (stepsOfTokens (parseSelector sel)) value with
  | none => simp [set_by_selector, hs]
  | some u =>
    have h2 := setSteps_idem root _ value u hs
    simp [set_by_selector, hs, h2]

/-! ## Round trip of the selector serialization (claim C3) -/

theorem digitVal_digitChar (d : Nat) (h : d < 10) : digitVal (digitChar d) = d := by
  interval_cases d <;> decide

theorem isDigitChar_digitChar (d : Nat) : isDigitChar (digitChar d) = true := by
  rcases d with _ | _ | _ | _ | _ | _ | _ | _ | _ | n
  case succ.succ.succ.succ.succ.succ.succ.succ.succ =>
    show isDigitChar '9' = true
    decide
  all_goals decide

theorem natFromDigits_concat (xs : List Char) (c : Char) :
    natFromDigits (xs ++ [c]) = 10 * natFromDigits xs + digitVal c := by
  simp [natFromDigits, List.foldl_append]

theorem natToDigitsAux_correct : ∀ (fuel n : Nat), n < fuel →
    natFromDigits (natToDigitsAux fuel n) = n
  | 0, n, h => absurd h (by omega)
  | fuel + 1, n, h => by
    by_cases hn : n < 10
    · simp [natToDigitsAux, hn, natFromDigits, digitVal_digitChar n hn]
    · have hfuel : n / 10 < fuel := by omega
      have ih := natToDigitsAux_correct fuel (n / 10) hfuel
      simp [natToDigitsAux, hn, natFromDigits_concat, ih, digitVal_digitChar (n % 10) (by omega)]
      omega

theorem natFromDigits_natToDigits (n : Nat) : natFromDigits (natToDigits n) = n :=
  natToDigitsAux_correct (n + 1) n (by omega)

theorem natToDigitsAux_all_digit : ∀ (fuel n : Nat),
    ∀ c ∈ natToDigitsAux fuel n, isDigitChar c = true
  | 0, _, c, hc => by simp [natToDigitsAux] at hc
  | fuel + 1, n, c, hc => by
    by_cases hn : n < 10
    · simp [natToDigitsAux, hn] at hc
      simpa [hc] using isDigitChar_digitChar n
    · simp [natToDigitsAux, hn] at hc
      rcases hc with hc | hc
      · exact natToDigitsAux_all_digit fuel (n / 10) c hc
      · simpa [hc] using isDigitChar_digitChar (n % 10)

theorem natToDigits_all_digit (n : Nat) : ∀ c ∈ natToDigits n, isDigitChar c = true :=
  natToDigitsAux_all_digit (n + 1) n

theorem natToDigits_ne_nil (n : Nat) : natToDigits n ≠ [] := by
  unfold natToDigits natToDigitsAux
  by_cases hn : n < 10 <;> simp [hn]

/-- A decimal digit is not one of the selector metacharacters. -/
theorem isDigitChar_excl (c : Char) (h : isDigitChar c = true) :
    c ≠ '.' ∧ c ≠ '[' ∧ c ≠ ']' ∧ c ≠ '\n' := by
  refine ⟨?_, ?_, ?_, ?_⟩ <;> rintro rfl <;> revert h <;> decide

/-- A word character is not one of the selector metacharacters. -/
theorem isWordChar_excl (c : Char) (h : isWordChar c = true) :
    c ≠ '.' ∧ c ≠ '[' ∧ c ≠ ']' ∧ c ≠ '\n' := by
  refine ⟨?_, ?_, ?_, ?_⟩ <;> rintro rfl <;> revert h <;> decide

theorem splitOnDot_no_dot : ∀ p : List Char, '.' ∉ p → splitOnDot p = [p]
  | [], _ => rfl
  | c :: rest, h => by
    have hc : ¬ c = '.' := fun e => h (by simp [e])
    have hr : '.' ∉ rest := fun e => h (by simp [e])
    simp [splitOnDot, hc, splitOnDot_no_dot rest hr]

theorem splitOnDot_append : ∀ (p s : List Char), '.' ∉ p →
    splitOnDot (p ++ '.' :: s) = p :: splitOnDot s
  | [], s, _ => by simp [splitOnDot]
  | c :: rest, s, h => by
    have hc : ¬ c = '.' := fun e => h (by simp [e])
    have hr : '.' ∉ rest := fun e => h (by simp [e])
    simp [splitOnDot, hc, splitOnDot_append rest s hr]

theorem mem_of_getLastQ : ∀ (l : List Char) (c : Char), l.getLast? = some c → c ∈ l
  | [], c, h => by simp at h
  | [a], c, h => by simp at h; simp [h]
  | a :: b :: t, c, h => by
    have h2 : (b :: t).getLast? = some c := by simpa [List.getLast?] using h
    exact List.mem_cons_of_mem a (mem_of_getLastQ (b :: t) c h2)

theorem takeWhile_append_stop (p : Char → Bool) :
    ∀ (xs ys : List Char), (∀ c ∈ xs, p c = true) →
      (∀ c, ys.head? = some c → p c = false) →
      (xs ++ ys).takeWhile p = xs ∧ (xs ++ ys).dropWhile p = ys
  | [], ys, _, hy => by
    cases ys with
    | nil => simp
    | cons c t => simp [List.takeWhile, List.dropWhile, hy c rfl]
  | x :: xs, ys, hx, hy => by
    have hpx : p x = true := hx x (by simp)
    have ih := takeWhile_append_stop p xs ys (fun c hc => hx c (by simp [hc])) hy
    simp [List.takeWhile, List.dropWhile, hpx, ih.1, ih.2]

/-- The bracket-group serialization of one index list. -/
def bracketChars (idxs : List Nat) : List Char :=
  (idxs.map (fun i => '[' :: (natToDigits i ++ [']']))).flatten

theorem serializeToken_eq (t : Token) : serializeToken t = t.1 ++ bracketChars t.2 := rfl

theorem bracketChars_mem (idxs : List Nat) :
    ∀ c ∈ bracketChars idxs, c = '[' ∨ c = ']' ∨ isDigitChar c = true := by
  intro c hc
  simp [bracketChars] at hc
  obtain ⟨i, -, hci⟩ := hc
  rcases hci with h | h
  · exact Or.inl h
  · rcases h with h | h
    · exact Or.inr (Or.inr (natToDigits_all_digit i c h))
    · exact Or.inr (Or.inl h)

theorem bracketChars_headQ (idxs : List Nat) (h : idxs ≠ []) :
    (bracketChars idxs).head? = some '[' := by
  cases idxs with
  | nil => exact absurd rfl h
  | cons i is => simp [bracketChars]

theorem parseBracketDigits_spec :
    ∀ (ds rest : List Char) (acc : Nat) (seen : Bool), ds ≠ [] →
      (∀ c ∈ ds, isDigitChar c = true) →
      parseBracketDigits (ds ++ ']' :: rest) acc seen =
        (parseBrackets rest).map
          (fun is => ds.foldl (fun a c => 10 * a + digitVal c) acc :: is)
  | [], _, _, _, h, _ => absurd rfl h
  | [d], rest, acc, seen, _, hall => by
    have hd : isDigitChar d = true := hall d (by simp)
    have hrb : isDigitChar ']' = false := by decide
    simp [parseBracketDigits, hd, hrb]
  | d :: d2 :: ds, rest, acc, seen, _, hall => by
    have hd : isDigitChar d = true := hall d (by simp)
    have ih := parseBracketDigits_spec (d2 :: ds) rest (10 * acc + digitVal d) true
      (by simp) (fun c hc => hall c (by simp at hc; rcases hc with h | h <;> simp [h]))
    simpa [parseBracketDigits, hd] using ih

theorem parseBrackets_bracketChars : ∀ idxs : List Nat,
    parseBrackets (bracketChars idxs) = some idxs
  | [] => rfl
  | i :: is => by
    have h1 : natToDigits i ≠ [] := natToDigits_ne_nil i
    have h2 : ∀ c ∈ natToDigits i, isDigitChar c = true := natToDigits_all_digit i
    have hshape : bracketChars (i :: is) =
        '[' :: (natToDigits i ++ ']' :: bracketChars is) := by
      simp [bracketChars]
    rw [hshape]
    have hfold : (natToDigits i).foldl (fun a c => 10 * a + digitVal c) 0 = i := by
      simpa [natFromDigits] using natFromDigits_natToDigits i
    simp [parseBrackets, parseBracketDigits_spec (natToDigits i) _ 0 false h1 h2,
      parseBrackets_bracketChars is, hfold]

theorem parsePart_serializeToken (name : List Char) (idxs : List Nat)
    (hne : name ≠ []) (hw : ∀ c ∈ name, isWordChar c = true) :
    parsePart (serializeToken (name, idxs)) = (name, idxs) := by
  have hhead : ∀ c, (bracketChars idxs).head? = some c → isWordChar c = false := by
    intro c hc
    cases idxs with
    | nil => simp [bracketChars] at hc
    | cons i is =>
      rw [bracketChars_headQ _ (by simp)] at hc
      cases hc
      decide
  have hspan := takeWhile_append_stop isWordChar name (bracketChars idxs) hw hhead
  have hlast : ∀ c, (bracketChars idxs).getLast? = some c → ¬ c = '\n' := by
    intro c hc
    have hcmem := mem_of_getLastQ _ _ hc
    rcases bracketChars_mem idxs c hcmem with h | h | h
    · simp [h]
    · simp [h]
    · exact (isDigitChar_excl c h).2.2.2
  rw [parsePart, serializeToken_eq]
  simp only [hspan.1, hspan.2]
  have hrest2 : (match (bracketChars idxs).getLast? with
      | some c => if c = '\n' then (bracketChars idxs).dropLast else bracketChars idxs
      | none => bracketChars idxs) = bracketChars idxs := by
    cases hg : (bracketChars idxs).getLast? with
    | none => rfl
    | some c => simp [hlast c hg]
  rw [hrest2]
  simp [hne, parseBrackets_bracketChars idxs]

theorem serializeToken_no_dot (t : Token) (hw : ∀ c ∈ t.1, isWordChar c = true) :
    '.' ∉ serializeToken t := by
  rw [serializeToken_eq]
  intro hmem
  rcases List.mem_append.mp hmem with h | h
  · exact (isWordChar_excl '.' (hw '.' h)).1 rfl
  · rcases bracketChars_mem t.2 '.' h with h2 | h2 | h2
    · exact absurd h2 (by decide)
    · exact absurd h2 (by decide)
    · exact (isDigitChar_excl '.' h2).1 rfl

theorem serializeToken_ne_nil (t : Token) (hne : t.1 ≠ []) : serializeToken t ≠ [] := by
  rw [serializeToken_eq]
  cases ht : t.1 with
  | nil => exact absurd ht hne
  | cons c cs => simp [ht]

theorem serializeTokens_ne_nil : ∀ (t : Token) (ts : List Token), t.1 ≠ [] →
    serializeTokens (t :: ts) ≠ []
  | t, [], hne => serializeToken_ne_nil t hne
  | t, t2 :: ts, hne => by
    have h1 := serializeToken_ne_nil t hne
    cases hs : serializeToken t with
    | nil => exact absurd hs h1
    | cons c cs => simp [serializeTokens, hs]

/-- C3: for every token sequence of the form produced by the extractor —
each token a nonempty field name of word characters together with a list
of non-negative decimal indices — parsing the serialized selector string
(field name, each index wrapped in brackets, tokens joined by a dot)
yields back exactly the token sequence. -/
theorem parse_serialize_roundtrip : ∀ ts : List Token,
    (∀ t ∈ ts, t.1 ≠ [] ∧ ∀ c ∈ t.1, isWordChar c = true) →
    parseSelector (serializeTokens ts) = ts
  | [], _ => rfl
  | [t], h => by
    obtain ⟨hne, hw⟩ := h t (by simp)
    have hnodot := serializeToken_no_dot t hw
    have hnn := serializeToken_ne_nil t hne
    obtain ⟨name, idxs⟩ := t
    rw [serializeTokens, parseSelector, if_neg hnn, splitOnDot_no_dot _ hnodot]
    simp [parsePart_serializeToken name idxs hne hw]
  | t :: t2 :: ts, h => by
    obtain ⟨hne, hw⟩ := h t (by simp)
    have hnodot := serializeToken_no_dot t hw
    have hrest : serializeTokens (t2 :: ts) ≠ [] :=
      serializeTokens_ne_nil t2 ts (h t2 (by simp)).1
    have ih := parse_serialize_roundtrip (t2 :: ts)
      (fun u hu => h u (by simp at hu; rcases hu with h1 | h1 <;> simp [h1]))
    rw [parseSelector, if_neg hrest] at ih
    have hs : serializeTokens (t :: t2 :: ts) =
        serializeToken t ++ '.' :: serializeTokens (t2 :: ts) := rfl
    have hnn : serializeTokens (t :: t2 :: ts) ≠ [] := serializeTokens_ne_nil t (t2 :: ts) hne
    rw [parseSelector, if_neg hnn, hs, splitOnDot_append _ _ hnodot]
    obtain ⟨name, idxs⟩ := t
    simp [parsePart_serializeToken name idxs hne hw, ih]

/-- Witness for C3 at the token sequence of the scenario-1 selector. -/
theorem parse_serialize_roundtrip_witness :
    parseSelector (serializeTokens
        [("_items".toList, [0]), ("_taggedText".toList, [0]), ("_text".toList, [])]) =
      [("_items".toList, [0]), ("_taggedText".toList, [0]), ("_text".toList, [])] :=
  parse_serialize_roundtrip _ (by decide)

/-! ## Patch store (`src/translate_tool.py`, `load_patches_from_files`)

The merged store has shape
`{ suffix : { path_id(str) : [ {object_selector, patched_value}, ... ] } }`.
It is modelled as nested association lists in insertion order; an entry is
the pair of its selector and its value, matching the dicts built by
`_merge_entry` (the only code that creates entries of the merged store). -/

/-- A patch entry `{'object_selector': selector, 'patched_value': value}`. -/
abbrev PEntry := List Char × PyVal

/-- The per-suffix map `path_id -> entries`. -/
abbrev IdMap := List (List Char × List PEntry)

/-- The merged store `suffix -> path_id -> entries`. -/
abbrev PatchMap := List (List Char × IdMap)

instance : DecidableEq PEntry := inferInstance

instance : DecidableEq IdMap := inferInstance

instance : DecidableEq PatchMap := inferInstance

/-- String-keyed association lookup (Python dict indexing). -/
def lookupA {α : Type} (k : List Char) : List (List Char × α) → Option α
  | [] => none
  | (k2, v) :: rest => if k2 = k then some v else lookupA k rest

/-- Python `store.setdefault(k, d)` followed by an in-place mutation `f` of
the entry value: the existing entry is modified in place, a missing key is
appended at the end with `f d`. -/
def updateA {α : Type} (k : List Char) (d : α) (f : α → α) :
    List (List Char × α) → List (List Char × α)
  | [] => [(k, f d)]
  | (k2, v) :: rest =>
    if k2 = k then (k2, f v) :: rest else (k2, v) :: updateA k d f rest

/-- The scan loop of `_merge_entry`: replace the value of the first entry
whose `object_selector` equals the selector, else append a new entry. -/
def upsertEntries : List PEntry → List Char → PyVal → List PEntry
  | [], sel, v => [(sel, v)]
  | (s, w) :: rest, sel, v =>
    if s = sel then (s, v) :: rest else (s, w) :: upsertEntries rest sel v

/-- Model of `_merge_entry` (src/translate_tool.py, lines 80-90).  The
arguments are strings as declared by the source signature
(`suffix: str, pid: str, selector: str`); `str(pid)` on a string is the
identity.  Empty (falsy) suffix, pid or selector is ignored. -/
def mergeEntry (store : PatchMap) (suffix pid sel : List Char) (v : PyVal) : PatchMap :=
  if suffix = [] ∨ pid = [] ∨ sel = [] then store
  else updateA suffix []
    (fun idMap => updateA pid [] (fun entries => upsertEntries entries sel v) idMap) store

/-- Lookup of the value stored for a `(suffix, pathId, selector)` key. -/
def lookupEntry : List PEntry → List Char → Option PyVal
  | [], _ => none
  | (s, w) :: rest, sel => if s = sel then some w else lookupEntry rest sel

/-- The value of the merged store at a `(suffix, pathId, selector)` key. -/
def lookupPatch (store : PatchMap) (suffix pid sel : List Char) : Option PyVal :=
  match lookupA suffix store with
  | none => none
  | some idMap =>
    match lookupA pid idMap with
    | none => none
    | some entries => lookupEntry entries sel

theorem lookupA_updateA_self {α : Type} (k : List Char) (d : α) (f : α → α) :
    ∀ l : List (List Char × α),
      lookupA k (updateA k d f l) = some (f ((lookupA k l).getD d))
  | [] => by simp [updateA, lookupA]
  | (k2, v) :: rest => by
    by_cases h : k2 = k
    · simp [updateA, lookupA, h]
    · simp [updateA, lookupA, h, lookupA_updateA_self k d f rest]

theorem lookupA_updateA_ne {α : Type} (k k2 : List Char) (d : α) (f : α → α)
    (hne : k2 ≠ k) : ∀ l : List (List Char × α),
      lookupA k2 (updateA k d f l) = lookupA k2 l
  | [] => by simp [updateA, lookupA, Ne.symm hne]
  | (k3, v) :: rest => by
    by_cases h : k3 = k
    · subst h
      simp [updateA, lookupA, Ne.symm hne]
    · by_cases h3 : k3 = k2
      · subst h3
        simp [updateA, lookupA, h]
      · simp [updateA, lookupA, h, h3, lookupA_updateA_ne k k2 d f hne rest]

theorem lookupEntry_upsert_self (sel : List Char) (v : PyVal) :
    ∀ es : List PEntry, lookupEntry (upsertEntries es sel v) sel = some v
  | [] => by simp [upsertEntries, lookupEntry]
  | (s, w) :: rest => by
    by_cases h : s = sel
    · simp [upsertEntries, lookupEntry, h]
    · simp [upsertEntries, lookupEntry, h, lookupEntry_upsert_self sel v rest]

theorem lookupEntry_upsert_ne (sel s2 : List Char) (v : PyVal) (hne : s2 ≠ sel) :
    ∀ es : List PEntry, lookupEntry (upsertEntries es sel v) s2 = lookupEntry es s2
  | [] => by simp [upsertEntries, lookupEntry, Ne.symm hne]
  | (s, w) :: rest => by
    by_cases h : s = sel
    · subst h
      simp [upsertEntries, lookupEntry, Ne.symm hne]
    · by_cases h2 : s = s2
      · subst h2
        simp [upsertEntries, lookupEntry, h]
      · simp [upsertEntries, lookupEntry, h, h2, lookupEntry_upsert_ne sel s2 v hne rest]

theorem upsertEntries_append (sel : List Char) (v : PyVal) :
    ∀ es : List PEntry, (∀ e ∈ es, e.1 ≠ sel) →
      upsertEntries es sel v = es ++ [(sel, v)]
  | [], _ => rfl
  | (s, w) :: rest, h => by
    have hs : ¬ s = sel := h (s, w) (by simp)
    simp [upsertEntries, hs, upsertEntries_append sel v rest (fun e he => h e (by simp [he]))]

theorem upsertEntries_in_place (sel : List Char) (v v0 : PyVal) :
    ∀ (es1 es2 : List PEntry), (∀ e ∈ es1, e.1 ≠ sel) →
      upsertEntries (es1 ++ (sel, v0) :: es2) sel v = es1 ++ (sel, v) :: es2
  | [], es2, _ => by simp [upsertEntries]
  | (s, w) :: rest, es2, h => by
    have hs : ¬ s = sel := h (s, w) (by simp)
    simp [upsertEntries, hs,
      upsertEntries_in_place sel v v0 rest es2 (fun e he => h e (by simp [he]))]

/-- The key just merged holds the merged value. -/
theorem lookupPatch_mergeEntry_self (store : PatchMap) (suf pid sel : List Char) (v : PyVal)
    (h1 : suf ≠ []) (h2 : pid ≠ []) (h3 : sel ≠ []) :
    lookupPatch (mergeEntry store suf pid sel v) suf pid sel = some v := by
  unfold mergeEntry
  rw [if_neg (by simp [h1, h2, h3])]
  simp [lookupPatch, lookupA_updateA_self, lookupEntry_upsert_self]

/-- Every other key is untouched by a merge. -/
theorem lookupPatch_mergeEntry_frame (store : PatchMap) (suf pid sel : List Char) (v : PyVal)
    (suf2 pid2 sel2 : List Char) (hne : ¬ (suf2 = suf ∧ pid2 = pid ∧ sel2 = sel)) :
    lookupPatch (mergeEntry store suf pid sel v) suf2 pid2 sel2 =
      lookupPatch store suf2 pid2 sel2 := by
  unfold mergeEntry
  by_cases hguard : suf = [] ∨ pid = [] ∨ sel = []
  · rw [if_pos hguard]
  · rw [if_neg hguard]
    by_cases hsuf : suf2 = suf
    · subst hsuf
      by_cases hpid : pid2 = pid
      · subst hpid
        have hsel : sel2 ≠ sel := fun e => hne ⟨rfl, rfl, e⟩
        simp only [lookupPatch, lookupA_updateA_self,
          lookupEntry_upsert_ne sel sel2 v hsel]
        cases hl : lookupA suf2 store with
        | none => simp [lookupA, lookupEntry]
        | some idMap =>
          cases hl2 : lookupA pid2 idMap with
          | none => simp [hl2, lookupEntry]
          | some entries => simp [hl2]
      · simp only [lookupPatch, lookupA_updateA_self,
          lookupA_updateA_ne pid pid2 [] _ hpid]
        cases hl : lookupA suf2 store with
        | none => simp [lookupA]
        | some idMap => simp
    · simp only [lookupPatch, lookupA_updateA_ne suf suf2 [] _ hsuf]

/-- C4: folding patch records with `_merge_entry` realizes
last-writer-wins per `(bundleSuffix, pathId, selector)` key: a record
whose key already exists overwrites the existing entry value in place, a
record with a new key is appended, every other key is untouched; hence
for a key present in two sources the later-merged value wins, and a key
present in only one source keeps that source value. -/
theorem mergeEntry_upsert_semantics (store : PatchMap) (suf pid sel : List Char) (v : PyVal)
    (h1 : suf ≠ []) (h2 : pid ≠ []) (h3 : sel ≠ []) :
    lookupPatch (mergeEntry store suf pid sel v) suf pid sel = some v ∧
    (∀ suf2 pid2 sel2, ¬ (suf2 = suf ∧ pid2 = pid ∧ sel2 = sel) →
      lookupPatch (mergeEntry store suf pid sel v) suf2 pid2 sel2 =
        lookupPatch store suf2 pid2 sel2) ∧
    (∀ v2, lookupPatch (mergeEntry (mergeEntry store suf pid sel v) suf pid sel v2)
        suf pid sel = some v2) ∧
    (∀ es : List PEntry, (∀ e ∈ es, e.1 ≠ sel) →
      upsertEntries es sel v = es ++ [(sel, v)]) ∧
    (∀ (es1 es2 : List PEntry) (v0 : PyVal), (∀ e ∈ es1, e.1 ≠ sel) →
      upsertEntries (es1 ++ (sel, v0) :: es2) sel v = es1 ++ (sel, v) :: es2) := by
  refine ⟨lookupPatch_mergeEntry_self store suf pid sel v h1 h2 h3,
    fun suf2 pid2 sel2 hne => lookupPatch_mergeEntry_frame store suf pid sel v suf2 pid2 sel2 hne,
    fun v2 => lookupPatch_mergeEntry_self _ suf pid sel v2 h1 h2 h3,
    upsertEntries_append sel v,
    fun es1 es2 v0 => upsertEntries_in_place sel v v0 es1 es2⟩

/-- Witness for C4 at spec scenario 4: merging `(suf,"1","sel") -> old`
and then `(suf,"1","sel") -> new` yields `new` in the merged map. -/
theorem mergeEntry_upsert_semantics_witness :
    lookupPatch (mergeEntry (mergeEntry [] "suf".toList "1".toList "sel".toList
        (.vstr "old".toList)) "suf".toList "1".toList "sel".toList (.vstr "new".toList))
      "suf".toList "1".toList "sel".toList = some (.vstr "new".toList) :=
  (mergeEntry_upsert_semantics (mergeEntry [] "suf".toList "1".toList "sel".toList
      (.vstr "old".toList)) "suf".toList "1".toList "sel".toList (.vstr "new".toList)
    (by decide) (by decide) (by decide)).1

/-- C8 counterexample: presenting the same two records of one source in
the two possible iteration orders yields two different merged maps (the
entry lists are ordered by first arrival), so `load` is not bit-identical
regardless of iteration order within a source. -/
theorem merge_not_order_invariant :
    mergeEntry (mergeEntry [] "s".toList "1".toList "a".toList (.vstr "x".toList))
        "s".toList "1".toList "b".toList (.vstr "y".toList) ≠
      mergeEntry (mergeEntry [] "s".toList "1".toList "b".toList (.vstr "y".toList))
        "s".toList "1".toList "a".toList (.vstr "x".toList) := by
  decide

/-- C8 (amended): merging is deterministic for a fixed record sequence,
and merging two records with distinct keys in either order yields maps
with identical `(suffix, pathId, selector)` lookups — only the ordering
of entry lists (and, for equal keys, the winning value) depends on the
iteration order. -/
theorem merge_lookup_order_invariant (store : PatchMap)
    (suf1 pid1 sel1 suf2 pid2 sel2 : List Char) (v1 v2 : PyVal)
    (h11 : suf1 ≠ []) (h12 : pid1 ≠ []) (h13 : sel1 ≠ [])
    (h21 : suf2 ≠ []) (h22 : pid2 ≠ []) (h23 : sel2 ≠ [])
    (hkey : ¬ (suf1 = suf2 ∧ pid1 = pid2 ∧ sel1 = sel2)) :
    ∀ qs qp qsel : List Char,
      lookupPatch (mergeEntry (mergeEntry store suf1 pid1 sel1 v1) suf2 pid2 sel2 v2)
          qs qp qsel =
        lookupPatch (mergeEntry (mergeEntry store suf2 pid2 sel2 v2) suf1 pid1 sel1 v1)
          qs qp qsel := by
  intro qs qp qsel
  by_cases hq1 : qs = suf1 ∧ qp = pid1 ∧ qsel = sel1
  · obtain ⟨e1, e2, e3⟩ := hq1
    subst e1; subst e2; subst e3
    rw [lookupPatch_mergeEntry_frame _ suf2 pid2 sel2 v2 qs qp qsel hkey,
      lookupPatch_mergeEntry_self store qs qp qsel v1 h11 h12 h13,
      lookupPatch_mergeEntry_self _ qs qp qsel v1 h11 h12 h13]
  · by_cases hq2 : qs = suf2 ∧ qp = pid2 ∧ qsel = sel2
    · obtain ⟨e1, e2, e3⟩ := hq2
      subst e1; subst e2; subst e3
      rw [lookupPatch_mergeEntry_self _ qs qp qsel v2 h21 h22 h23,
        lookupPatch_mergeEntry_frame _ suf1 pid1 sel1 v1 qs qp qsel hq1,
        lookupPatch_mergeEntry_self store qs qp qsel v2 h21 h22 h23]
    · rw [lookupPatch_mergeEntry_frame _ suf2 pid2 sel2 v2 qs qp qsel hq2,
        lookupPatch_mergeEntry_frame _ suf1 pid1 sel1 v1 qs qp qsel hq1,
        lookupPatch_mergeEntry_frame _ suf1 pid1 sel1 v1 qs qp qsel hq1,
        lookupPatch_mergeEntry_frame _ suf2 pid2 sel2 v2 qs qp qsel hq2]

/-- Witness for the amended C8 statement, at the records of the
counterexample: both merge orders store `x` under selector `a`. -/
theorem merge_lookup_order_invariant_witness :
    lookupPatch (mergeEntry (mergeEntry [] "s".toList "1".toList "a".toList
        (.vstr "x".toList)) "s".toList "1".toList "b".toList (.vstr "y".toList))
      "s".toList "1".toList "a".toList =
    lookupPatch (mergeEntry (mergeEntry [] "s".toList "1".toList "b".toList
        (.vstr "y".toList)) "s".toList "1".toList "a".toList (.vstr "x".toList))
      "s".toList "1".toList "a".toList :=
  merge_lookup_order_invariant [] "s".toList "1".toList "a".toList
    "s".toList "1".toList "b".toList (.vstr "x".toList) (.vstr "y".toList)
    (by decide) (by decide) (by decide) (by decide) (by decide) (by decide)
    (by decide) "s".toList "1".toList "a".toList

/-! ## The YAML source of `load_patches_from_files` (claim C5)

Lines 100-116 of src/translate_tool.py iterate the mapping loaded from
`patches/addresses.txt` and feed each record into `_merge_entry`; the
pathId key is converted with `str(pid)` and nothing else.  Suffix keys and
selectors are strings in the addresses.txt schema (and `_merge_entry`
declares them `str`); mappings carrying other types there are outside the
modelled domain and are skipped. -/

/-- Python `str()` of an `int` (decimal form, minus sign for negatives). -/
def intRepr (n : Int) : List Char :=
  if n < 0 then '-' :: natToDigits (-n).toNat else natToDigits n.toNat

/-- Python `str()` of a scalar mapping key. -/
def pyKeyStr : PyKey → List Char
  | .kstr s => s
  | .kint n => intRepr n
  | .kbool true => "True".toList
  | .kbool false => "False".toList
  | .knone => "None".toList

/-- One record of the YAML source: entries that are dicts contribute their
`object_selector` (when present and a string) and `patched_value` (absent
becomes Python `None`). -/
def mergeYamlEntry (store : PatchMap) (suf pidStr : List Char) (ent : PyVal) : PatchMap :=
  match ent with
  | .vdict d =>
    match lookupStr ("object_selector".toList) d with
    | some (.vstr sel) =>
      mergeEntry store suf pidStr sel ((lookupStr ("patched_value".toList) d).getD .vnone)
    | some _ => store
    | none => store
  | _ => store

/-- The entry loop over one pathId of the YAML source. -/
def mergeYamlEntries (suf pidStr : List Char) : PatchMap → List PyVal → PatchMap
  | store, [] => store
  | store, ent :: rest => mergeYamlEntries suf pidStr (mergeYamlEntry store suf pidStr ent) rest

/-- The pathId loop of the YAML source: `pid_str = str(pid)` is the only
conversion applied to the key. -/
def mergeYamlPids (suf : List Char) : PatchMap → List (PyKey × PyVal) → PatchMap
  | store, [] => store
  | store, (pid, entries) :: rest =>
    let store2 := match entries with
      | .vlist es => mergeYamlEntries suf (pyKeyStr pid) store es
      | _ => store
    mergeYamlPids suf store2 rest

/-- The suffix loop of the YAML source. -/
def mergeYamlSuffixes : PatchMap → List (PyKey × PyVal) → PatchMap
  | store, [] => store
  | store, (suf, idMap) :: rest =>
    let store2 := match suf, idMap with
      | .kstr s, .vdict pids => mergeYamlPids s store pids
      | _, _ => store
    mergeYamlSuffixes store2 rest

/-- Model of the YAML branch of `load_patches_from_files`
(src/translate_tool.py, lines 100-116), applied to the already parsed
YAML data. -/
def loadPatchesFromYaml (data : PyVal) (store : PatchMap) : PatchMap :=
  match data with
  | .vdict sufs => mergeYamlSuffixes store sufs
  | _ => store

/-- A YAML source whose pathId is the string `"042"`. -/
def c5YamlData : PyVal :=
  .vdict [(.kstr "suf".toList, .vdict [(.kstr "042".toList, .vlist
    [.vdict [(.kstr "object_selector".toList, .vstr "sel".toList),
             (.kstr "patched_value".toList, .vstr "v".toList)]])])]

/-- C5 counterexample: the numeric-looking pathId `"042"` is used as a map
key verbatim — the merged store holds the key `"042"` and nothing under
the canonical decimal form `"42"`, so pathIds are not normalized (leading
zeros survive) before being used as Patch Store keys. -/
theorem pathid_not_normalized :
    lookupPatch (loadPatchesFromYaml c5YamlData []) "suf".toList "042".toList "sel".toList =
        some (.vstr "v".toList) ∧
      lookupPatch (loadPatchesFromYaml c5YamlData []) "suf".toList "42".toList "sel".toList =
        none := by
  decide

/-- C5 (amended): pathIds are used as Patch Store keys after `str()`
conversion only: an int pathId `n` from one source and the string
`str(n)` from another produce identical merged stores (so numeric `42`
and string `"42"` collide on the key `"42"`), but no further
normalization happens — a string pathId keeps leading zeros verbatim. -/
theorem pathid_str_conversion (store : PatchMap) (suf : List Char) (n : Int)
    (entries : PyVal) :
    loadPatchesFromYaml (.vdict [(.kstr suf, .vdict [(.kint n, entries)])]) store =
      loadPatchesFromYaml (.vdict [(.kstr suf, .vdict [(.kstr (intRepr n), entries)])]) store :=
  rfl

example :
    lookupPatch (loadPatchesFromYaml
        (.vdict [(.kstr "suf".toList, .vdict [(.kint 42, .vlist
          [.vdict [(.kstr "object_selector".toList, .vstr "sel".toList),
                   (.kstr "patched_value".toList, .vstr "v".toList)]])])]) [])
      "suf".toList "42".toList "sel".toList = some (.vstr "v".toList) := by
  decide

/-! ## Binary patch map validation (`src/lib/bin.py`)

`sys.exit(1)` (the fatal path) is rendered as `none`; a returned byte map
as `some`.  Bytes are naturals below 256 produced from pairs of hex
digits. -/

/-- Python whitespace characters removed by `str.strip()`. -/
def isPyWs (c : Char) : Bool :=
  c = ' ' || c = '\t' || c = '\n' || c = '\r' || c.toNat = 11 || c.toNat = 12

/-- Python `s.strip()`. -/
def pyStrip (s : List Char) : List Char :=
  ((s.dropWhile isPyWs).reverse.dropWhile isPyWs).reverse

/-- The cleaning step of `_normalize_hex_to_bytes`:
`hex_str.replace(" ", "").replace("_", "").strip()`. -/
def pyNormalizeHex (s : List Char) : List Char :=
  pyStrip (s.filter (fun c => !(c = ' ' || c = '_')))

/-- Value of one hex digit (`bytes.fromhex` digit classes). -/
def hexDigitVal (c : Char) : Option Nat :=
  if '0' ≤ c ∧ c ≤ '9' then some (c.toNat - 48)
  else if 'a' ≤ c ∧ c ≤ 'f' then some (c.toNat - 87)
  else if 'A' ≤ c ∧ c ≤ 'F' then some (c.toNat - 55)
  else none

/-- `bytes.fromhex` on the cleaned string: pairs of hex digits; an odd
length or a non-hex character raises `ValueError` (`none`). -/
def hexDecode : List Char → Option (List Nat)
  | [] => some []
  | [_] => none
  | c1 :: c2 :: rest =>
    match hexDigitVal c1, hexDigitVal c2, hexDecode rest with
    | some h, some l, some bs => some ((16 * h + l) :: bs)
    | _, _, _ => none

/-- The source byte pattern of a mapping pair (`_normalize_hex_to_bytes`
applied to the key). -/
def srcBytes (p : List Char × List Char) : Option (List Nat) :=
  hexDecode (pyNormalizeHex p.1)

/-- The destination bytes of a mapping pair. -/
def dstBytes (p : List Char × List Char) : Option (List Nat) :=
  hexDecode (pyNormalizeHex p.2)

/-- The loop of `validate_bin_patch_map` with the byte map built so far:
invalid hex exits, a length mismatch exits, a source pattern already in
the byte map exits, otherwise the pair is appended. -/
def validateAux : List (List Nat × List Nat) → List (List Char × List Char) →
    Option (List (List Nat × List Nat))
  | acc, [] => some acc
  | acc, p :: rest =>
    match srcBytes p, dstBytes p with
    | some kb, some vb =>
      if kb.length ≠ vb.length then none
      else if kb ∈ acc.map Prod.fst then none
      else validateAux (acc ++ [(kb, vb)]) rest
    | _, _ => none

/-- Model of `validate_bin_patch_map` (src/lib/bin.py, lines 10-29). -/
def validate_bin_patch_map (m : List (List Char × List Char)) :
    Option (List (List Nat × List Nat)) :=
  validateAux [] m

/-- A pair whose key or value is not valid hex. -/
def pairInvalid (p : List Char × List Char) : Prop :=
  srcBytes p = none ∨ dstBytes p = none

/-- A decodable pair whose source and destination byte strings differ in
length. -/
def pairMismatch (p : List Char × List Char) : Prop :=
  ∃ kb vb, srcBytes p = some kb ∧ dstBytes p = some vb ∧ kb.length ≠ vb.length

/-- Some later pair of the mapping decodes to a source pattern already in
`seen`. -/
def hitSeen (seen : List (List Nat)) (m : List (List Char × List Char)) : Prop :=
  ∃ (j : Nat) (pj : List Char × List Char) (b : List Nat),
    m[j]? = some pj ∧ srcBytes pj = some b ∧ b ∈ seen

/-- Two keys of the mapping normalize to the same source byte pattern. -/
def dupSrc (m : List (List Char × List Char)) : Prop :=
  ∃ (i j : Nat) (pi pj : List Char × List Char) (b : List Nat),
    i < j ∧ m[i]? = some pi ∧ m[j]? = some pj ∧
    srcBytes pi = some b ∧ srcBytes pj = some b

theorem hitSeen_cons (seen : List (List Nat)) (p : List Char × List Char)
    (rest : List (List Char × List Char)) :
    hitSeen seen (p :: rest) ↔
      (∃ b, srcBytes p = some b ∧ b ∈ seen) ∨ hitSeen seen rest := by
  constructor
  · rintro ⟨j, pj, b, hj, hsrc, hmem⟩
    cases j with
    | zero =>
      simp at hj
      subst hj
      exact Or.inl ⟨b, hsrc, hmem⟩
    | succ j2 =>
      simp at hj
      exact Or.inr ⟨j2, pj, b, hj, hsrc, hmem⟩
  · rintro (⟨b, hsrc, hmem⟩ | ⟨j, pj, b, hj, hsrc, hmem⟩)
    · exact ⟨0, p, b, by simp, hsrc, hmem⟩
    · exact ⟨j + 1, pj, b, by simpa using hj, hsrc, hmem⟩

theorem dupSrc_cons (p : List Char × List Char) (rest : List (List Char × List Char)) :
    dupSrc (p :: rest) ↔
      (∃ b, srcBytes p = some b ∧
        ∃ (j : Nat) (pj : List Char × List Char), rest[j]? = some pj ∧ srcBytes pj = some b) ∨
      dupSrc rest := by
  constructor
  · rintro ⟨i, j, pi, pj, b, hij, hi, hj, hsi, hsj⟩
    cases i with
    | zero =>
      simp at hi
      subst hi
      obtain ⟨j2, rfl⟩ : ∃ j2, j = j2 + 1 := ⟨j - 1, by omega⟩
      simp at hj
      exact Or.inl ⟨b, hsi, j2, pj, hj, hsj⟩
    | succ i2 =>
      obtain ⟨j2, rfl⟩ : ∃ j2, j = j2 + 1 := ⟨j - 1, by omega⟩
      simp at hi hj
      exact Or.inr ⟨i2, j2, pi, pj, b, by omega, hi, hj, hsi, hsj⟩
  · rintro (⟨b, hsrc, j, pj, hj, hsj⟩ | ⟨i, j, pi, pj, b, hij, hi, hj, hsi, hsj⟩)
    · exact ⟨0, j + 1, p, pj, b, by omega, by simp, by simpa using hj, hsrc, hsj⟩
    · exact ⟨i + 1, j + 1, pi, pj, b, by omega, by simpa using hi, by simpa using hj, hsi, hsj⟩

theorem hitSeen_append (seen : List (List Nat)) (b0 : List Nat)
    (m : List (List Char × List Char)) :
    hitSeen (seen ++ [b0]) m ↔
      hitSeen seen m ∨
        ∃ (j : Nat) (pj : List Char × List Char), m[j]? = some pj ∧ srcBytes pj = some b0 := by
  constructor
  · rintro ⟨j, pj, b, hj, hs, hmem⟩
    rcases List.mem_append.mp hmem with h | h
    · exact Or.inl ⟨j, pj, b, hj, hs, h⟩
    · simp at h
      subst h
      exact Or.inr ⟨j, pj, hj, hs⟩
  · rintro (⟨j, pj, b, hj, hs, hmem⟩ | ⟨j, pj, hj, hs⟩)
    · exact ⟨j, pj, b, hj, hs, by simp [hmem]⟩
    · exact ⟨j, pj, b0, hj, hs, by simp⟩

theorem validateAux_none_iff :
    ∀ (m : List (List Char × List Char)) (acc : List (List Nat × List Nat)),
      validateAux acc m = none ↔
        (∃ p ∈ m, pairInvalid p ∨ pairMismatch p) ∨
          hitSeen (acc.map Prod.fst) m ∨ dupSrc m
  | [], acc => by
    simp only [validateAux]
    constructor
    · intro h
      exact absurd h (by simp)
    · rintro (⟨p, hp, _⟩ | ⟨j, pj, b, hj, _, _⟩ | ⟨i, j, pi, pj, b, _, hi, _, _, _⟩)
      · simp at hp
      · simp at hj
      · simp at hi
  | (k, v) :: rest, acc => by
    cases hsk : srcBytes (k, v) with
    | none =>
      have hl : validateAux acc ((k, v) :: rest) = none := by
        simp [validateAux, hsk]
      rw [hl]
      exact iff_of_true rfl (Or.inl ⟨(k, v), by simp, Or.inl (Or.inl hsk)⟩)
    | some kb =>
      cases hdk : dstBytes (k, v) with
      | none =>
        have hl : validateAux acc ((k, v) :: rest) = none := by
          simp [validateAux, hsk, hdk]
        rw [hl]
        exact iff_of_true rfl (Or.inl ⟨(k, v), by simp, Or.inl (Or.inr hdk)⟩)
      | some vb =>
        by_cases hlen : kb.length = vb.length
        · by_cases hdup : kb ∈ acc.map Prod.fst
          · have hl : validateAux acc ((k, v) :: rest) = none := by
              simp [validateAux, hsk, hdk, hlen, hdup]
            rw [hl]
            exact iff_of_true rfl (Or.inr (Or.inl ⟨0, (k, v), kb, by simp, hsk, hdup⟩))
          · have hl : validateAux acc ((k, v) :: rest) =
                validateAux (acc ++ [(kb, vb)]) rest := by
              simp [validateAux, hsk, hdk, hlen, hdup]
            rw [hl, validateAux_none_iff rest (acc ++ [(kb, vb)])]
            have hmapfst : (acc ++ [(kb, vb)]).map Prod.fst = acc.map Prod.fst ++ [kb] := by
              simp
            rw [hmapfst, hitSeen_append]
            constructor
            · rintro (⟨p, hp, hbad⟩ | (hseen | ⟨j, pj, hj, hsj⟩) | hdupr)
              · exact Or.inl ⟨p, by simp [hp], hbad⟩
              · exact Or.inr (Or.inl ((hitSeen_cons _ _ _).mpr (Or.inr hseen)))
              · exact Or.inr (Or.inr ((dupSrc_cons _ _).mpr (Or.inl ⟨kb, hsk, j, pj, hj, hsj⟩)))
              · exact Or.inr (Or.inr ((dupSrc_cons _ _).mpr (Or.inr hdupr)))
            · rintro (⟨p, hp, hbad⟩ | hseen | hdupc)
              · simp at hp
                rcases hp with hp | hp
                · subst hp
                  rcases hbad with hbad | ⟨kb2, vb2, h1, h2, h3⟩
                  · rcases hbad with hbad | hbad
                    · rw [hsk] at hbad
                      cases hbad
                    · rw [hdk] at hbad
                      cases hbad
                  · rw [hsk] at h1
                    rw [hdk] at h2
                    cases h1
                    cases h2
                    exact absurd hlen h3
                · exact Or.inl ⟨p, hp, hbad⟩
              · rcases (hitSeen_cons _ _ _).mp hseen with ⟨b, hsb, hmem⟩ | hseenr
                · rw [hsk] at hsb
                  cases hsb
                  exact absurd hmem hdup
                · exact Or.inr (Or.inl (Or.inl hseenr))
              · rcases (dupSrc_cons _ _).mp hdupc with ⟨b, hsb, j, pj, hj, hsj⟩ | hdupr
                · rw [hsk] at hsb
                  cases hsb
                  exact Or.inr (Or.inl (Or.inr ⟨j, pj, hj, hsj⟩))
                · exact Or.inr (Or.inr hdupr)
        · have hl : validateAux acc ((k, v) :: rest) = none := by
            simp [validateAux, hsk, hdk, hlen]
          rw [hl]
          exact iff_of_true rfl (Or.inl ⟨(k, v), by simp, Or.inr ⟨kb, vb, hsk, hdk, hlen⟩⟩)

theorem validateAux_lengths :
    ∀ (m : List (List Char × List Char)) (acc bm : List (List Nat × List Nat)),
      validateAux acc m = some bm → (∀ q ∈ acc, q.1.length = q.2.length) →
      ∀ q ∈ bm, q.1.length = q.2.length
  | [], acc, bm, h, hacc => by
    simp [validateAux] at h
    subst h
    exact hacc
  | (k, v) :: rest, acc, bm, h, hacc => by
    cases hsk : srcBytes (k, v) with
    | none => simp [validateAux, hsk] at h
    | some kb =>
      cases hdk : dstBytes (k, v) with
      | none => simp [validateAux, hsk, hdk] at h
      | some vb =>
        by_cases hlen : kb.length = vb.length
        · by_cases hdup : kb ∈ acc.map Prod.fst
          · simp [validateAux, hsk, hdk, hlen, hdup] at h
          · have h2 : validateAux (acc ++ [(kb, vb)]) rest = some bm := by
              simpa [validateAux, hsk, hdk, hlen, hdup] using h
            refine validateAux_lengths rest (acc ++ [(kb, vb)]) bm h2 ?_
            intro q hq
            rcases List.mem_append.mp hq with hq | hq
            · exact hacc q hq
            · simp at hq
              subst hq
              exact hlen
        · simp [validateAux, hsk, hdk, hlen] at h

/-- C9: `validate_bin_patch_map` terminates the program (`sys.exit(1)`,
rendered as `none`) exactly when the input mapping contains a pair with
invalid hex, a pair whose source and destination decode to byte strings of
different lengths, or two keys that normalize to the same source byte
pattern; on success it returns a byte-to-byte map in which every key has
the same length as its value. -/
theorem validate_bin_patch_map_spec (m : List (List Char × List Char)) :
    (validate_bin_patch_map m = none ↔
      (∃ p ∈ m, pairInvalid p ∨ pairMismatch p) ∨ dupSrc m) ∧
    (∀ bm, validate_bin_patch_map m = some bm → ∀ q ∈ bm, q.1.length = q.2.length) := by
  constructor
  · rw [validate_bin_patch_map, validateAux_none_iff m []]
    have hempty : hitSeen (([] : List (List Nat × List Nat)).map Prod.fst) m ↔ False := by
      simp [hitSeen]
    rw [hempty]
    constructor
    · rintro (h | h | h)
      · exact Or.inl h
      · exact h.elim
      · exact Or.inr h
    · rintro (h | h)
      · exact Or.inl h
      · exact Or.inr (Or.inr h)
  · intro bm h
    exact validateAux_lengths m [] bm h (by simp)

/-- Witness for C9: a mapping whose source and destination decode to
different byte lengths is rejected (`"aa"` is one byte, `"bbcc"` two). -/
theorem validate_bin_patch_map_spec_witness :
    validate_bin_patch_map [("aa".toList, "bbcc".toList)] = none :=
  (validate_bin_patch_map_spec [("aa".toList, "bbcc".toList)]).1.mpr
    (Or.inl ⟨("aa".toList, "bbcc".toList), by simp,
      Or.inr ⟨[170], [187, 204], by decide, by decide, by decide⟩⟩)

example : validate_bin_patch_map [("a a".toList, "bb".toList), ("AA".toList, "cc".toList)] =
    none := by decide

example : validate_bin_patch_map [("a a".toList, "b b".toList), ("10".toList, "cc".toList)] =
    some [([170], [187]), ([16], [204])] := by decide

/-! ## Localized-text extractor (`src/bundle_info.py`, `extract_localized_texts`)

The function walks the tree; inside an `_items` list it inspects each
element that is a dict carrying `_taggedText`; for every entry of that
list carrying `_locale` and `_text` it builds the one-entry dict
`{locale: text}` and reads it back with `.get(0, "")` and `.get(2, "")`,
so a single entry only ever fills the column matching its own locale.
`dict.get(0)` succeeds exactly when the stored key compares equal to the
int (Python numeric equality, where booleans equal their int values);
unhashable `_locale` values (lists, dicts) would raise at dict creation
and are not modelled — no theorem below quantifies over trees. -/

/-- Python `x == n` for an int literal `n`: only ints and bools compare
equal to an int. -/
def pyEqInt (x : PyVal) (n : Int) : Bool :=
  match x with
  | .vint m => m == n
  | .vbool b => (if b then (1 : Int) else 0) == n
  | _ => false

/-- The inner loop over one `_taggedText` list: per entry, the selector
`f"{item_path}._taggedText[{t_idx}]._text"` together with
`locales.get(0, "")` and `locales.get(2, "")` of the singleton dict. -/
def extractTagged : List PyVal → List Char → Nat → List (List Char × PyVal × PyVal)
  | [], _, _ => []
  | entry :: rest, itemPath, tIdx =>
    (match entry with
     | .vdict d =>
       match lookupStr ("_locale".toList) d, lookupStr ("_text".toList) d with
       | some loc, some txt =>
         [(itemPath ++ "._taggedText[".toList ++ natToDigits tIdx ++ "]._text".toList,
           if pyEqInt loc 0 then txt else .vstr [],
           if pyEqInt loc 2 then txt else .vstr [])]
       | _, _ => []
     | _ => []) ++ extractTagged rest itemPath (tIdx + 1)

mutual
/-- Model of `extract_localized_texts` (src/bundle_info.py, lines 63-89).
Returns the `(selector, original, chinese)` tuples in emission order. -/
def extract_localized_texts : PyVal → List Char → List (List Char × PyVal × PyVal)
  | .vdict kvs, basePath => extractFields kvs basePath
  | .vlist xs, basePath => extractSeq xs basePath 0
  | _, _ => []
/-- The loop over the items of a dict node. -/
def extractFields : List (PyKey × PyVal) → List Char → List (List Char × PyVal × PyVal)
  | [], _ => []
  | (key, value) :: rest, basePath =>
    (if key = PyKey.kstr ("_items".toList) then
      match value with
      | .vlist items =>
        extractItems items
          (if basePath = [] then pyKeyStr key else basePath ++ '.' :: pyKeyStr key) 0
      | v =>
        extract_localized_texts v
          (if basePath = [] then pyKeyStr key else basePath ++ '.' :: pyKeyStr key)
     else
      extract_localized_texts value
        (if basePath = [] then pyKeyStr key else basePath ++ '.' :: pyKeyStr key)) ++
    extractFields rest basePath
/-- The loop over the elements of an `_items` list: the `_taggedText`
tuples of the element, then the recursive walk into the element. -/
def extractItems : List PyVal → List Char → Nat → List (List Char × PyVal × PyVal)
  | [], _, _ => []
  | item :: rest, newPath, idx =>
    (match item with
     | .vdict d =>
       match lookupStr ("_taggedText".toList) d with
       | some (.vlist tagged) =>
         extractTagged tagged (newPath ++ '[' :: (natToDigits idx ++ [']'])) 0
       | _ => []
     | _ => []) ++
    extract_localized_texts item (newPath ++ '[' :: (natToDigits idx ++ [']'])) ++
    extractItems rest newPath (idx + 1)
/-- The loop over the elements of a plain list node. -/
def extractSeq : List PyVal → List Char → Nat → List (List Char × PyVal × PyVal)
  | [], _, _ => []
  | item :: rest, basePath, idx =>
    extract_localized_texts item (basePath ++ '[' :: (natToDigits idx ++ [']'])) ++
    extractSeq rest basePath (idx + 1)
end

example :
    extract_localized_texts scenario1Tree [] =
      [("_items[0]._taggedText[0]._text".toList, .vstr "Hello".toList, .vstr []),
       ("_items[0]._taggedText[1]._text".toList, .vstr [], .vstr "你好".toList)] := by
  decide

/-- C1 counterexample: on the scenario-1 tree
`{"_items":[{"_taggedText":[{"_locale":0,"_text":"Hello"},{"_locale":2,"_text":"你好"}]}]}`
the extractor emits two output tuples, not exactly one pair — the
locale-0 and locale-2 entries of the same `_taggedText` sequence are not
paired into a single tuple. -/
theorem extract_scenario1_not_one_pair :
    (extract_localized_texts scenario1Tree []).length = 2 := by
  decide

/-- C1 (amended): on the scenario-1 tree the extractor emits exactly two
`(selector, original, chinese)` tuples, one per `_taggedText` entry: the
locale-0 entry yields `(_items[0]._taggedText[0]._text, "Hello", "")` and
the locale-2 entry yields `(_items[0]._taggedText[1]._text, "", "你好")` —
each tuple reads only the locale of its own entry (the `locales` dict is
a singleton), so entries are emitted separately rather than paired. -/
theorem extract_scenario1_separate_tuples :
    extract_localized_texts scenario1Tree [] =
      [("_items[0]._taggedText[0]._text".toList, .vstr "Hello".toList, .vstr []),
       ("_items[0]._taggedText[1]._text".toList, .vstr [], .vstr "你好".toList)] := by
  decide

/-! ## Legacy resolver (`src/bundle_info.py`, `_set_by_selector`)

The legacy variant splits the selector with
`re.split(r'\.(?![^\[\]]*])', selector)` (a dot is a separator unless the
first bracket character after it is a closing bracket), navigates segment
by segment, and on a final segment carrying a bracket index writes into
the `_text` field of the indexed element.  Exceptions (`TypeError` from
`in` or indexing on a non-container, `ValueError` from `int`) are `none`;
a normal return carries the boolean and the tree. -/

/-- The first bracket character of a string, if any. -/
def firstBracket (s : List Char) : Option Char :=
  (s.dropWhile (fun c => !(c = '[' || c = ']'))).head?

/-- The lookahead `(?![^\[\]]*])` of the legacy split: it matches (and
thereby suppresses the split) exactly when the first bracket character of
the remainder is `']'`. -/
def lookaheadHit (rest : List Char) : Bool :=
  match firstBracket rest with
  | some c => c = ']'
  | none => false

/-- Model of `re.split(r'\.(?![^\[\]]*])', selector)`. -/
def legacySplit : List Char → List (List Char)
  | [] => [[]]
  | c :: rest =>
    if c = '.' && !lookaheadHit rest then [] :: legacySplit rest
    else
      match legacySplit rest with
      | [] => [[c]]
      | p :: ps => (c :: p) :: ps

/-- Python `key in current` for the containers the legacy resolver can
meet: dict key membership, list element equality against the string,
substring test on a string; a `TypeError` (int, bool, None) is `none`. -/
def pyInOpt (k : List Char) : PyVal → Option Bool
  | .vdict d => some (containsStr k d)
  | .vlist xs => some (xs.any (fun x => match x with | .vstr s => s = k | _ => false))
  | .vstr s => some (decide (k <:+: s))
  | _ => none

/-- Python `current[key]` with a string key: only a dict succeeds; list
and string indexing by a string raise `TypeError`. -/
def getItemStr (k : List Char) : PyVal → Option PyVal
  | .vdict d => lookupStr k d
  | _ => none

/-- Python `current[key] = value` with a string key: only a dict succeeds. -/
def setItemStr (k : List Char) (v : PyVal) : PyVal → Option PyVal
  | .vdict d => some (.vdict (updateStr k v d))
  | _ => none

/-- Python `int(idx_str)` restricted to decimal digit strings — the only
inputs reached under the hypotheses of the equivalence theorem (indices
extracted from serialized selectors); other strings raise in the model. -/
def pyIntDigits (s : List Char) : Option Nat :=
  if s ≠ [] ∧ s.all isDigitChar then some (natFromDigits s) else none

/-- `idx_str.rstrip(']')`: removes every trailing closing bracket. -/
def rstripRBrackets (s : List Char) : List Char :=
  (s.reverse.dropWhile (fun c => c = ']')).reverse

/-- `key.split('[', 1)[0]`. -/
def baseOfKey (key : List Char) : List Char := key.takeWhile (fun c => !(c = '['))

/-- `key.split('[', 1)[1].rstrip(']')`. -/
def idxStrOfKey (key : List Char) : List Char :=
  rstripRBrackets ((key.dropWhile (fun c => !(c = '['))).tail)

/-- The final segment of the legacy resolver: a bracketed final segment
writes into the `_text` field of the indexed element (only when it is a
dict containing `_text`); an unbracketed one writes the field itself. -/
def legacyFinal (cur : PyVal) (last : List Char) (v : PyVal) : Option (Bool × PyVal) :=
  if last.contains '[' then
    match pyInOpt (baseOfKey last) cur with
    | none => none
    | some false => some (false, cur)
    | some true =>
      match getItemStr (baseOfKey last) cur with
      | none => none
      | some arr =>
        match arr with
        | .vlist xs =>
          match pyIntDigits (idxStrOfKey last) with
          | none => none
          | some i =>
            if i < xs.length then
              match xs[i]? with
              | some (.vdict d) =>
                if containsStr ("_text".toList) d then
                  match setItemStr (baseOfKey last)
                      (.vlist (xs.set i (.vdict (updateStr ("_text".toList) v d)))) cur with
                  | none => none
                  | some cur2 => some (true, cur2)
                else some (false, cur)
              | _ => some (false, cur)
            else some (false, cur)
        | _ => some (false, cur)
  else
    match pyInOpt last cur with
    | none => none
    | some false => some (false, cur)
    | some true =>
      match setItemStr last v cur with
      | none => none
      | some cur2 => some (true, cur2)

/-- The segment loop of the legacy resolver (`for key in keys[:-1]`
followed by the final segment); a `False` return performs no write, so
the original subtree is carried back unchanged. -/
def legacySetKeys : PyVal → List (List Char) → PyVal → Option (Bool × PyVal)
  | _, [], _ => none
  | cur, [last], v => legacyFinal cur last v
  | cur, key :: k2 :: rest, v =>
    if key.contains '[' then
      match pyInOpt (baseOfKey key) cur with
      | none => none
      | some false => some (false, cur)
      | some true =>
        match getItemStr (baseOfKey key) cur with
        | none => none
        | some arr =>
          match arr with
          | .vlist xs =>
            match pyIntDigits (idxStrOfKey key) with
            | none => none
            | some i =>
              if i < xs.length then
                match xs[i]? with
                | none => none
                | some elem =>
                  match legacySetKeys elem (k2 :: rest) v with
                  | none => none
                  | some (false, _) => some (false, cur)
                  | some (true, elem2) =>
                    match setItemStr (baseOfKey key) (.vlist (xs.set i elem2)) cur with
                    | none => none
                    | some cur2 => some (true, cur2)
              else some (false, cur)
          | _ => some (false, cur)
    else
      match pyInOpt key cur with
      | none => none
      | some false => some (false, cur)
      | some true =>
        match getItemStr key cur with
        | none => none
        | some sub =>
          match legacySetKeys sub (k2 :: rest) v with
          | none => none
          | some (false, _) => some (false, cur)
          | some (true, sub2) =>
            match setItemStr key sub2 cur with
            | none => none
            | some cur2 => some (true, cur2)

/-- Model of `_set_by_selector` (src/bundle_info.py, lines 239-280).
`re.split` never returns an empty list, so the `[]` case of the key loop
is unreachable. -/
def legacy_set_by_selector (tree : PyVal) (selector : List Char) (v : PyVal) :
    Option (Bool × PyVal) :=
  legacySetKeys tree (legacySplit selector) v

example :
    legacy_set_by_selector scenario1Tree ("_items[0]._taggedText[0]._text".toList)
        (.vstr "Xin chào".toList) = some (true, scenario1Patched) := by
  decide

example :
    legacy_set_by_selector scenario1Tree ("_items[0]._taggedText[5]._text".toList)
        (.vstr "x".toList) = some (false, scenario1Tree) := by
  decide

/-! Lemmas about the legacy split on serialized selectors. -/

theorem lookaheadHit_false (s : List Char) (h : firstBracket s ≠ some ']') :
    lookaheadHit s = false := by
  unfold lookaheadHit
  cases hf : firstBracket s with
  | none => rfl
  | some c =>
    have hc : ¬ c = ']' := fun e => h (by rw [hf, e])
    simp [hc]

theorem firstBracket_append (s1 s2 : List Char)
    (h : ∀ c ∈ s1, c ≠ '[' ∧ c ≠ ']') :
    firstBracket (s1 ++ s2) = firstBracket s2 := by
  induction s1 with
  | nil => simp
  | cons c rest ih =>
    have hc := h c (by simp)
    simp only [firstBracket, List.cons_append, List.dropWhile]
    have : (!(c = '[' || c = ']')) = true := by simp [hc.1, hc.2]
    rw [this]
    exact ih (fun c2 hc2 => h c2 (by simp [hc2]))

theorem firstBracket_cons_lb (s : List Char) : firstBracket ('[' :: s) = some '[' := by
  simp [firstBracket, List.dropWhile]

theorem firstBracket_cons_dot (s : List Char) : firstBracket ('.' :: s) = firstBracket s := by
  simp [firstBracket, List.dropWhile]

theorem wordChars_no_brackets (name : List Char) (hw : ∀ c ∈ name, isWordChar c = true) :
    ∀ c ∈ name, c ≠ '[' ∧ c ≠ ']' := by
  intro c hc
  exact ⟨(isWordChar_excl c (hw c hc)).2.1, (isWordChar_excl c (hw c hc)).2.2.1⟩

theorem firstBracket_serializeToken_append (t : Token) (s2 : List Char)
    (hw : ∀ c ∈ t.1, isWordChar c = true) :
    firstBracket (serializeToken t ++ s2) =
      (match t.2 with
       | [] => firstBracket s2
       | _ :: _ => some '[') := by
  obtain ⟨name, idxs⟩ := t
  cases idxs with
  | nil =>
    have : serializeToken (name, []) ++ s2 = name ++ s2 := by
      simp [serializeToken_eq, bracketChars]
    rw [this, firstBracket_append name s2 (wordChars_no_brackets name hw)]
  | cons i is =>
    have : serializeToken (name, i :: is) ++ s2 =
        name ++ ('[' :: ((natToDigits i ++ [']']) ++ (bracketChars is ++ s2))) := by
      simp [serializeToken_eq, bracketChars]
    rw [this, firstBracket_append name _ (wordChars_no_brackets name hw),
      firstBracket_cons_lb]

theorem firstBracket_serializeTokens :
    ∀ ts : List Token, (∀ t ∈ ts, ∀ c ∈ t.1, isWordChar c = true) →
      firstBracket (serializeTokens ts) ≠ some ']'
  | [], _ => by simp [serializeTokens, firstBracket]
  | [t], h => by
    have h1 := firstBracket_serializeToken_append t [] (h t (by simp))
    have h2 : serializeTokens [t] = serializeToken t ++ [] := by simp [serializeTokens]
    rw [h2, h1]
    cases ht : t.2 with
    | nil => simp [firstBracket]
    | cons i is => simp
  | t :: t2 :: rest, h => by
    have h2 : serializeTokens (t :: t2 :: rest) =
        serializeToken t ++ '.' :: serializeTokens (t2 :: rest) := rfl
    rw [h2, firstBracket_serializeToken_append t _ (h t (by simp))]
    cases ht : t.2 with
    | nil =>
      rw [firstBracket_cons_dot]
      exact firstBracket_serializeTokens (t2 :: rest)
        (fun u hu => h u (by simp at hu; rcases hu with hu | hu <;> simp [hu]))
    | cons i is => simp

theorem legacySplit_no_dot : ∀ p : List Char, '.' ∉ p → legacySplit p = [p]
  | [], _ => rfl
  | c :: rest, h => by
    have hc : ¬ c = '.' := fun e => h (by simp [e])
    simp [legacySplit, hc, legacySplit_no_dot rest (fun e => h (by simp [e]))]

theorem legacySplit_append : ∀ (p s : List Char), '.' ∉ p → lookaheadHit s = false →
    legacySplit (p ++ '.' :: s) = p :: legacySplit s
  | [], s, _, hs => by simp [legacySplit, hs]
  | c :: rest, s, h, hs => by
    have hc : ¬ c = '.' := fun e => h (by simp [e])
    simp [legacySplit, hc,
      legacySplit_append rest s (fun e => h (by simp [e])) hs]

theorem legacySplit_serializeTokens :
    ∀ (t : Token) (ts : List Token),
      (∀ u ∈ t :: ts, u.1 ≠ [] ∧ ∀ c ∈ u.1, isWordChar c = true) →
      legacySplit (serializeTokens (t :: ts)) = (t :: ts).map serializeToken
  | t, [], h => by
    have hw := (h t (by simp)).2
    simp [serializeTokens, legacySplit_no_dot _ (serializeToken_no_dot t hw)]
  | t, t2 :: rest, h => by
    have hw := (h t (by simp)).2
    have hs : serializeTokens (t :: t2 :: rest) =
        serializeToken t ++ '.' :: serializeTokens (t2 :: rest) := rfl
    have hhit : lookaheadHit (serializeTokens (t2 :: rest)) = false :=
      lookaheadHit_false _ (firstBracket_serializeTokens (t2 :: rest)
        (fun u hu => (h u (by simp at hu; rcases hu with hu | hu <;> simp [hu])).2))
    rw [hs, legacySplit_append _ _ (serializeToken_no_dot t hw) hhit,
      legacySplit_serializeTokens t2 rest
        (fun u hu => h u (by simp at hu; rcases hu with hu | hu <;> simp [hu]))]
    simp

/-! Helpers for the resolver equivalence. -/

theorem serializeToken_field_only (name : List Char) : serializeToken (name, []) = name := by
  simp [serializeToken_eq, bracketChars]

theorem serializeToken_one_index (name : List Char) (i : Nat) :
    serializeToken (name, [i]) = name ++ '[' :: (natToDigits i ++ [']']) := by
  simp [serializeToken_eq, bracketChars]

theorem contains_lb_false (name : List Char) (hw : ∀ c ∈ name, isWordChar c = true) :
    name.contains '[' = false := by
  induction name with
  | nil => rfl
  | cons c rest ih =>
    have hc : ¬ c = '[' := (isWordChar_excl c (hw c (by simp))).2.1
    have hc2 : ¬ '[' = c := fun e => hc e.symm
    simp only [List.contains_cons]
    rw [ih (fun c2 h2 => hw c2 (by simp [h2]))]
    simp [hc, hc2]

theorem contains_lb_true (name tail : List Char) :
    (name ++ '[' :: tail).contains '[' = true := by
  have : '[' ∈ name ++ '[' :: tail := by simp
  exact List.elem_eq_true_of_mem this

theorem baseOfKey_bracket (name tail : List Char) (hw : ∀ c ∈ name, isWordChar c = true) :
    baseOfKey (name ++ '[' :: tail) = name := by
  unfold baseOfKey
  exact (takeWhile_append_stop (fun c => !(c = '[')) name ('[' :: tail)
    (fun c hc => by simp [(isWordChar_excl c (hw c hc)).2.1])
    (fun c hc => by simp at hc; subst hc; simp)).1

theorem idxStrOfKey_bracket (name : List Char) (i : Nat)
    (hw : ∀ c ∈ name, isWordChar c = true) :
    idxStrOfKey (name ++ '[' :: (natToDigits i ++ [']'])) = natToDigits i := by
  unfold idxStrOfKey
  rw [(takeWhile_append_stop (fun c => !(c = '[')) name ('[' :: (natToDigits i ++ [']']))
    (fun c hc => by simp [(isWordChar_excl c (hw c hc)).2.1])
    (fun c hc => by simp at hc; subst hc; simp)).2]
  show rstripRBrackets (natToDigits i ++ [']']) = natToDigits i
  unfold rstripRBrackets
  have h1 : (natToDigits i ++ [']']).reverse = ']' :: (natToDigits i).reverse := by simp
  rw [h1, List.dropWhile_cons, if_pos (by simp)]
  cases hd : (natToDigits i).reverse with
  | nil => exact absurd (by simpa using congrArg List.reverse hd) (natToDigits_ne_nil i)
  | cons c t =>
    have hcmem : c ∈ natToDigits i := by
      rw [← List.mem_reverse, hd]
      simp
    have hcd := natToDigits_all_digit i c hcmem
    have hcne : ¬ c = ']' := (isDigitChar_excl c hcd).2.2.1
    rw [List.dropWhile_cons, if_neg (by simp [hcne]), ← hd, List.reverse_reverse]

theorem pyIntDigits_natToDigits (i : Nat) : pyIntDigits (natToDigits i) = some i := by
  unfold pyIntDigits
  rw [if_pos ⟨natToDigits_ne_nil i, List.all_eq_true.mpr (natToDigits_all_digit i)⟩,
    natFromDigits_natToDigits]

theorem getStep_field_dict (cur sub : PyVal) (name : List Char)
    (h : getStep cur (.field name) = some sub) :
    ∃ d, cur = .vdict d ∧ lookupStr name d = some sub := by
  cases cur <;> simp [getStep] at h
  case vdict d => exact ⟨d, rfl, h⟩

theorem getStep_index_list (cur elem : PyVal) (i : Nat)
    (h : getStep cur (.index i) = some elem) :
    ∃ xs, cur = .vlist xs ∧ xs[i]? = some elem := by
  cases cur <;> simp [getStep] at h
  case vlist xs => exact ⟨xs, rfl, by simpa using h⟩

theorem lt_length_of_getElemQ {xs : List PyVal} {i : Nat} {e : PyVal}
    (h : xs[i]? = some e) : i < xs.length := by
  by_contra hlt
  rw [List.getElem?_eq_none (by omega)] at h
  cases h

theorem stepsOfTokens_cons (t : Token) (ts : List Token) :
    stepsOfTokens (t :: ts) = Step.field t.1 :: (t.2.map Step.index ++ stepsOfTokens ts) := by
  simp [stepsOfTokens]

/-- For selectors built from tokens with at most one bracket index each
and no index on the final token, whenever the step path fully resolves,
the legacy resolver and the step-path write produce the same tree and
both succeed. -/
theorem legacy_matches_setSteps :
    ∀ (ts : List Token) (cur v r : PyVal),
      (∀ t ∈ ts, t.1 ≠ [] ∧ (∀ c ∈ t.1, isWordChar c = true) ∧ t.2.length ≤ 1) →
      ts.getLast?.map Prod.snd = some [] →
      resolveSteps cur (stepsOfTokens ts) = some r →
      ∃ t2, setSteps cur (stepsOfTokens ts) v = some t2 ∧
        legacySetKeys cur (ts.map serializeToken) v = some (true, t2)
  | [], _, _, _, _, hlast, _ => by simp at hlast
  | [(name, idxs)], cur, v, r, hrestr, hlast, hres => by
    have hidxs : idxs = [] := by simpa using hlast
    subst hidxs
    have hw := (hrestr (name, []) (by simp)).2.1
    have hsteps : stepsOfTokens [(name, [])] = [Step.field name] := by
      simp [stepsOfTokens]
    rw [hsteps] at hres
    have hget : getStep cur (Step.field name) = some r := by
      cases hg : getStep cur (Step.field name) with
      | none => simp [resolveSteps, hg] at hres
      | some sub =>
        have hsr : sub = r := by simpa [resolveSteps, hg] using hres
        exact congrArg some hsr
    obtain ⟨d, hcur, hlook⟩ := getStep_field_dict cur r name hget
    subst hcur
    refine ⟨.vdict (updateStr name v d), ?_, ?_⟩
    · rw [hsteps]
      simp [setSteps, setStep, containsStr, hlook]
    · have hser : [((name, ([] : List Nat)) : Token)].map serializeToken = [name] := by
        simp [serializeToken_field_only]
      rw [hser]
      show legacyFinal (.vdict d) name v = some (true, .vdict (updateStr name v d))
      have hnb : '[' ∉ name := fun hm => absurd (hw '[' hm) (by decide)
      unfold legacyFinal
      rw [if_neg (by simp [hnb])]
      simp [pyInOpt, containsStr, hlook, setItemStr]
  | (name, idxs) :: t2 :: rest, cur, v, r, hrestr, hlast, hres => by
    obtain ⟨hname, hw, hlen⟩ := hrestr (name, idxs) (by simp)
    have hlast2 : ((t2 :: rest).getLast?.map Prod.snd) = some [] := by
      rw [← hlast, List.getLast?_cons_cons]
    have hrestr2 : ∀ t ∈ t2 :: rest,
        t.1 ≠ [] ∧ (∀ c ∈ t.1, isWordChar c = true) ∧ t.2.length ≤ 1 :=
      fun t ht => hrestr t (List.mem_cons_of_mem _ ht)
    have hshape : stepsOfTokens (t2 :: rest) =
        Step.field t2.1 :: (t2.2.map Step.index ++ stepsOfTokens rest) :=
      stepsOfTokens_cons t2 rest
    rcases idxs with _ | ⟨i, _ | ⟨j, idxs'⟩⟩
    · -- the token carries no index
      have hsteps : stepsOfTokens ((name, ([] : List Nat)) :: t2 :: rest) =
          Step.field name :: stepsOfTokens (t2 :: rest) := by
        simp [stepsOfTokens]
      rw [hsteps] at hres
      cases hg : getStep cur (Step.field name) with
      | none => simp [resolveSteps, hg] at hres
      | some sub =>
        have hres2 : resolveSteps sub (stepsOfTokens (t2 :: rest)) = some r := by
          simpa [resolveSteps, hg] using hres
        obtain ⟨d, hcur, hlook⟩ := getStep_field_dict cur sub name hg
        subst hcur
        obtain ⟨u2, hset2, hleg2⟩ :=
          legacy_matches_setSteps (t2 :: rest) sub v r hrestr2 hlast2 hres2
        refine ⟨.vdict (updateStr name u2 d), ?_, ?_⟩
        · rw [hsteps, hshape]
          rw [hshape] at hset2
          simp [setSteps, hg, hset2, setStep, containsStr, hlook]
        · have hmap : (((name, ([] : List Nat)) : Token) :: t2 :: rest).map serializeToken =
              name :: serializeToken t2 :: rest.map serializeToken := by
            simp [serializeToken_field_only]
          rw [hmap]
          have hmap2 : (t2 :: rest).map serializeToken =
              serializeToken t2 :: rest.map serializeToken := by simp
          rw [hmap2] at hleg2
          have hnb : '[' ∉ name := fun hm => absurd (hw '[' hm) (by decide)
          simp only [legacySetKeys]
          rw [if_neg (by simp [hnb])]
          simp [pyInOpt, containsStr, hlook, getItemStr, hleg2, setItemStr]
    · -- the token carries one index
      have hsteps : stepsOfTokens ((name, [i]) :: t2 :: rest) =
          Step.field name :: Step.index i :: stepsOfTokens (t2 :: rest) := by
        simp [stepsOfTokens]
      rw [hsteps] at hres
      cases hg : getStep cur (Step.field name) with
      | none => simp [resolveSteps, hg] at hres
      | some sub =>
        have hres2 : resolveSteps sub (Step.index i :: stepsOfTokens (t2 :: rest)) = some r := by
          simpa [resolveSteps, hg] using hres
        cases hg2 : getStep sub (Step.index i) with
        | none => simp [resolveSteps, hg2] at hres2
        | some elem =>
          have hres3 : resolveSteps elem (stepsOfTokens (t2 :: rest)) = some r := by
            simpa [resolveSteps, hg2] using hres2
          obtain ⟨d, hcur, hlook⟩ := getStep_field_dict cur sub name hg
          subst hcur
          obtain ⟨xs, hsub, hxi⟩ := getStep_index_list sub elem i hg2
          subst hsub
          have hilen : i < xs.length := lt_length_of_getElemQ hxi
          obtain ⟨u2, hset2, hleg2⟩ :=
            legacy_matches_setSteps (t2 :: rest) elem v r hrestr2 hlast2 hres3
          refine ⟨.vdict (updateStr name (.vlist (xs.set i u2)) d), ?_, ?_⟩
          · rw [hsteps, hshape]
            rw [hshape] at hset2
            simp [setSteps, hg, hg2, hset2, setStep, hilen, containsStr, hlook]
          · have hmap : (((name, [i]) : Token) :: t2 :: rest).map serializeToken =
                (name ++ '[' :: (natToDigits i ++ [']'])) ::
                  serializeToken t2 :: rest.map serializeToken := by
              simp [serializeToken_one_index]
            rw [hmap]
            have hmap2 : (t2 :: rest).map serializeToken =
                serializeToken t2 :: rest.map serializeToken := by simp
            rw [hmap2] at hleg2
            have hbase := baseOfKey_bracket name (natToDigits i ++ [']']) hw
            have hidx := idxStrOfKey_bracket name i hw
            simp only [legacySetKeys]
            rw [if_pos (by simp)]
            simp [hbase, hidx, pyInOpt, containsStr, hlook, getItemStr,
              pyIntDigits_natToDigits, hilen, hxi, hleg2, setItemStr]
    · -- more than one index: excluded by the hypothesis
      simp at hlen

/-- C10: the current resolver writes only at the exact location named by
the final token (claim C6 above), while the legacy resolver special-cases
a bracketed final segment by writing into the `_text` field; nevertheless,
for every selector whose tokens each carry at most one bracket index and
whose final token carries none, and every tree on which the step path
fully resolves, the legacy resolver raises nothing, returns the same
success boolean (`True`) and produces exactly the tree of the current
resolver. -/
theorem legacy_resolver_equiv (tree v r : PyVal) (ts : List Token)
    (hrestr : ∀ t ∈ ts, t.1 ≠ [] ∧ (∀ c ∈ t.1, isWordChar c = true) ∧ t.2.length ≤ 1)
    (hlast : ts.getLast?.map Prod.snd = some [])
    (hres : resolveSteps tree (stepsOfTokens ts) = some r) :
    legacy_set_by_selector tree (serializeTokens ts) v =
      some (set_by_selector tree (serializeTokens ts) v) ∧
    (set_by_selector tree (serializeTokens ts) v).1 = true := by
  cases ts with
  | nil => simp at hlast
  | cons t ts2 =>
    have hparse : parseSelector (serializeTokens (t :: ts2)) = t :: ts2 :=
      parse_serialize_roundtrip (t :: ts2) (fun u hu => ⟨(hrestr u hu).1, (hrestr u hu).2.1⟩)
    have hsplit := legacySplit_serializeTokens t ts2
      (fun u hu => ⟨(hrestr u hu).1, (hrestr u hu).2.1⟩)
    obtain ⟨t2, hset, hleg⟩ := legacy_matches_setSteps (t :: ts2) tree v r hrestr hlast hres
    have hsetsel : set_by_selector tree (serializeTokens (t :: ts2)) v = (true, t2) := by
      unfold set_by_selector
      rw [hparse, hset]
    rw [hsetsel]
    exact ⟨by unfold legacy_set_by_selector; rw [hsplit]; exact hleg, rfl⟩

/-- Witness for C10 at the scenario-1 tree and the selector
`_items[0]._taggedText[0]._text` (every segment carries at most one
index, the final segment none, and the path resolves). -/
theorem legacy_resolver_equiv_witness :
    legacy_set_by_selector scenario1Tree
        (serializeTokens
          [("_items".toList, [0]), ("_taggedText".toList, [0]), ("_text".toList, [])])
        (.vstr "Xin chào".toList) =
      some (set_by_selector scenario1Tree
        (serializeTokens
          [("_items".toList, [0]), ("_taggedText".toList, [0]), ("_text".toList, [])])
        (.vstr "Xin chào".toList)) :=
  (legacy_resolver_equiv scenario1Tree (.vstr "Xin chào".toList) (.vstr "Hello".toList)
    [("_items".toList, [0]), ("_taggedText".toList, [0]), ("_text".toList, [])]
    (by decide) (by decide) (by decide)).1
